import Mathlib

/-!
# Verification of the `Cache` repository (LRU / LFU / ARC replacement policies)

Shallow embedding of the C++ sources under `src/` into Lean 4:

* `src/LRUCache.h`   — `LRUCache`, `LRUKCache`
* `src/LFUCache.h`   — `LFUCache` with average-frequency aging
* `src/ARCCache/ARCCache.h`, `src/ARCCache/ARCLRUPart.h`, `src/ARCCache/ARCCacheNode.h`

C++ machine arithmetic is modelled explicitly: `int` becomes `Int`
(with `Int.tdiv` for the truncating `/`), `size_t` becomes `Nat`, and the
implicit `int → size_t` conversions that the sources perform in comparisons
such as `nodeMap_.size() >= capacity_` are modelled by reduction modulo
`2 ^ 64` (`sizeT` below).

The caches are single-instance and every public operation holds the
instance mutex for its whole body, so the sequential small-step model
below (a fold of operations over an explicit state) captures the
observable behaviour of any single instance.
-/

namespace Cache

set_option maxRecDepth 100000

/-- The value of a C++ `int` expression converted to `size_t`
(conversion is reduction modulo `2 ^ 64` on a 64-bit target). -/
def sizeT (i : Int) : Nat := (i.emod (2 ^ 64)).toNat

theorem sizeT_of_nonneg {i : Int} (h0 : 0 ≤ i) (h1 : i < 2 ^ 64) :
    sizeT i = i.toNat := by
  unfold sizeT
  rw [show i.emod (2 ^ 64) = i % 2 ^ 64 from rfl, Int.emod_eq_of_lt h0 h1]

/-! ## LRU core (`src/LRUCache.h`, class `LRUCache`)

The doubly linked recency list is modelled as a Lean list of
`(key, value)` pairs in the physical order of the C++ list: the head
corresponds to `dummyHead_->next_` (the least recently used node) and the
last element to `dummyTail_->prev_` (the most recently used node).
`nodeMap_` maps each key to its unique node; since map and list are
mutated in lockstep by every operation, the map is represented by
key lookup in the list. -/

/-- State of one `LRUCache<Key, Value>` instance. `capacity_` is a C++
`int`. The list holds the nodes strictly between the two sentinels,
least recently used first. -/
structure LRUState (K V : Type) where
  capacity : Int
  list : List (K × V)
  deriving Repr, DecidableEq

variable {K V : Type} [DecidableEq K]

/-- `nodeMap_.find(key)` — the unique node holding `key`, if any. -/
def lruFind (s : LRUState K V) (k : K) : Option (K × V) :=
  s.list.find? (fun p => p.1 = k)

/-- `removeNode` on the node holding `k`: unlink the (unique) node from
the list. Removes the first occurrence, matching the single node the map
points to. -/
def eraseKey (k : K) : List (K × V) → List (K × V)
  | [] => []
  | p :: l => if p.1 = k then l else p :: eraseKey k l

/-- `moveToMostRecent`: `removeNode` followed by `insertNode` (insertion
happens in front of `dummyTail_`, i.e. at the end of the list). -/
def lruMoveToMostRecent (s : LRUState K V) (k : K) (v : V) : LRUState K V :=
  { s with list := eraseKey k s.list ++ [(k, v)] }

/-- `evictLeastRecent`: unlink `dummyHead_->next_` and erase its key from
the map. (Called only with a non-empty cache; on an empty list the C++
code would unlink the tail sentinel, which the callers never do.) -/
def lruEvictLeastRecent (s : LRUState K V) : LRUState K V :=
  { s with list := s.list.tail }

/-- `addNewNode`: evict if `nodeMap_.size() >= capacity_` (a `size_t`
comparison, so `capacity_` is converted modulo `2 ^ 64`), then insert the
new node at the most-recent end and register it in the map. -/
def lruAddNewNode (s : LRUState K V) (k : K) (v : V) : LRUState K V :=
  let s1 := if s.list.length ≥ sizeT s.capacity then lruEvictLeastRecent s else s
  { s1 with list := s1.list ++ [(k, v)] }

/-- `LRUCache::put`. -/
def lruPut (s : LRUState K V) (k : K) (v : V) : LRUState K V :=
  if s.capacity ≤ 0 then s
  else
    match lruFind s k with
    | some _ => lruMoveToMostRecent s k v   -- updateExistingNode: setValue + moveToMostRecent
    | none => lruAddNewNode s k v

/-- `LRUCache::get(Key, Value&)`: on a hit, move the node to the
most-recent end and return its value; on a miss return `none` and leave
the state unchanged. -/
def lruGet (s : LRUState K V) (k : K) : Option V × LRUState K V :=
  match lruFind s k with
  | some p => (some p.2, lruMoveToMostRecent s k p.2)
  | none => (none, s)

/-- `LRUCache::get(Key)`: value-returning overload; yields a
default-constructed `Value` on a miss. -/
def lruGetV [Inhabited V] (s : LRUState K V) (k : K) : V × LRUState K V :=
  match lruGet s k with
  | (some v, s') => (v, s')
  | (none, s') => (default, s')

/-- `LRUCache::remove`. -/
def lruRemove (s : LRUState K V) (k : K) : LRUState K V :=
  match lruFind s k with
  | some _ => { s with list := eraseKey k s.list }
  | none => s

/-- A freshly constructed `LRUCache(capacity)`: empty list between the
sentinels, empty map. -/
def lruInit (capacity : Int) : LRUState K V := ⟨capacity, []⟩

/-- One public operation on an `LRUCache` (the operations the claims
quantify over). -/
inductive LRUOp (K V : Type) where
  | put (k : K) (v : V)
  | get (k : K)
  deriving Repr, DecidableEq

/-- Run one operation, discarding `get`'s output. -/
def lruStep (s : LRUState K V) : LRUOp K V → LRUState K V
  | .put k v => lruPut s k v
  | .get k => (lruGet s k).2

/-- Run a sequence of operations from a given state. -/
def lruRun (s : LRUState K V) : List (LRUOp K V) → LRUState K V
  | [] => s
  | op :: ops => lruRun (lruStep s op) ops

/-! ### Touch instrumentation for the LRU characterisation (claim C1)

A key is *touched* by a `put` (always) or by a successful `get`
(spec P1). The instrumented run additionally accumulates the touched
keys, most recent first. -/

/-- One step together with the touch log (most recent touch first). -/
def lruStepT (st : LRUState K V × List K) (op : LRUOp K V) :
    LRUState K V × List K :=
  match op with
  | .put k v => (lruPut st.1 k v, k :: st.2)
  | .get k =>
    match lruGet st.1 k with
    | (some _, s') => (s', k :: st.2)
    | (none, s') => (s', st.2)

/-- Instrumented run from a given state and touch log. -/
def lruRunTFrom (st : LRUState K V × List K) :
    List (LRUOp K V) → LRUState K V × List K
  | [] => st
  | op :: ops => lruRunTFrom (lruStepT st op) ops

/-- Instrumented run of a fresh `LRUCache(capacity)`. -/
def lruRunT (capacity : Int) (ops : List (LRUOp K V)) :
    LRUState K V × List K :=
  lruRunTFrom (lruInit capacity, []) ops

/-- The distinct keys of `l` in order of first appearance (so, applied to
a most-recent-first touch log, the distinct keys from the most recently
touched backwards). -/
def firstDedup : List K → List K
  | [] => []
  | a :: l => a :: (firstDedup l).filter (fun b => b ≠ a)

/-- Keys of the recency list, most recently used first (the reverse of
the physical list order). -/
def mruKeys (s : LRUState K V) : List K := (s.list.map Prod.fst).reverse

/-- The invariant tying an LRU state to its touch log: the capacity is
unchanged and the recency order (MRU first) consists of the distinct
touched keys, most recent first, truncated at `capacity` (claim C1 /
spec P1). -/
def lruInvC1 (cap : Int) (st : LRUState K V × List K) : Prop :=
  st.1.capacity = cap ∧ mruKeys st.1 = (firstDedup st.2).take cap.toNat

/-! ## LFU core with aging (`src/LFUCache.h`, classes `FreqList`, `LFUCache`)

Each `FreqList` (one doubly linked list per frequency, between two
sentinels) is modelled by the list of the keys of its nodes, oldest first
(`addNode` appends in front of the tail sentinel, `getFirstNode` returns
`head_->next`, the oldest). `freqToFreqList_` is modelled as an
association list `freq ↦ key list`; `nodeMap_` as a list of nodes in
insertion order (the C++ `unordered_map` iteration order is unspecified;
wherever the code folds over a map — `updateMinFreq`,
`handleOverMaxAverageNum` — the result is order-independent except for
the resulting bucket-internal order after an age-down, which is likewise
unspecified in C++). A node (`FreqList::Node`) carries `key`, `value` and
`freq` (a C++ `int`). -/

/-- One `FreqList::Node`: shared by `nodeMap_` and its frequency list. -/
structure LFUNode (K V : Type) where
  key : K
  value : V
  freq : Int
  deriving Repr, DecidableEq

/-- State of one `LFUCache<Key, Value>` instance. All counters are C++
`int`s. -/
structure LFUState (K V : Type) where
  capacity : Int
  minFreq : Int
  maxAverageNum : Int
  curAverageNum : Int
  curTotalNum : Int
  nodeMap : List (LFUNode K V)
  buckets : List (Int × List K)
  deriving Repr, DecidableEq

/-- A freshly constructed `LFUCache(capacity, maxAverageNum)`:
`minFreq_ = INT8_MAX` (127), counters 0, empty maps. -/
def lfuInit (capacity maxAverageNum : Int) : LFUState K V :=
  ⟨capacity, 127, maxAverageNum, 0, 0, [], []⟩

/-- `nodeMap_.find(key)`. -/
def lfuFind (s : LFUState K V) (k : K) : Option (LFUNode K V) :=
  s.nodeMap.find? (fun n => n.key = k)

/-- The contents of the `FreqList` registered for frequency `f` in a
bucket map, oldest node first (empty when the bucket does not exist; a
read through `operator[]` of a missing bucket yields an empty/null list
in the code). -/
def lookupBucket (bs : List (Int × List K)) (f : Int) : List K :=
  match bs.find? (fun b => b.1 = f) with
  | some b => b.2
  | none => []

/-- The keys held by the `FreqList` for frequency `f`, oldest first. -/
def bucketOf (s : LFUState K V) (f : Int) : List K :=
  lookupBucket s.buckets f

/-- `FreqList::removeNode` via `removeFromFreqList`: unlink the node with
key `k` from the bucket of frequency `f` (the node's own frequency at
call time; in every state the code reaches, that is the unique list the
node is physically linked in). -/
def removeKB (f : Int) (k : K) : List (Int × List K) → List (Int × List K)
  | [] => []
  | b :: bs => if b.1 = f then (b.1, b.2.erase k) :: bs else b :: removeKB f k bs

/-- `addToFreqList`: create the bucket if missing, then `addNode` appends
the node in front of the bucket's tail sentinel (newest last). -/
def addKB (f : Int) (k : K) : List (Int × List K) → List (Int × List K)
  | [] => [(f, [k])]
  | b :: bs => if b.1 = f then (b.1, b.2 ++ [k]) :: bs else b :: addKB f k bs

/-- Replace the (unique) node with key `n.key` — the C++ code mutates the
shared node object in place. -/
def setNode (n : LFUNode K V) : List (LFUNode K V) → List (LFUNode K V)
  | [] => []
  | m :: nm => if m.key = n.key then n :: nm else m :: setNode n nm

/-- Erase the (unique) node with key `k` from `nodeMap_`. -/
def eraseNodeKey (k : K) : List (LFUNode K V) → List (LFUNode K V)
  | [] => []
  | m :: nm => if m.key = k then nm else m :: eraseNodeKey k nm

/-- `curAverageNum_ = curTotalNum_ / nodeMap_.size()` (or 0 when empty):
the `int` operand is converted to `size_t`, the division is unsigned, and
the result is stored back into an `int` (exact for the value ranges any
bounded run reaches). -/
def recomputeAvg (s : LFUState K V) : LFUState K V :=
  { s with curAverageNum :=
      if s.nodeMap.isEmpty then 0
      else Int.ofNat (sizeT s.curTotalNum / s.nodeMap.length) }

/-- `node->freq -= maxAverageNum_ / 2; if (node->freq < 1) node->freq = 1`
— the clamped result of the age-down decrement. -/
def lfuClamp (f : Int) : Int := if f < 1 then 1 else f

/-- `LFUCache::updateMinFreq`: scan every bucket, starting the minimum at
`INT8_MAX` (127); skip empty (or null) buckets; if the scan result is
still 127, fall back to 1. -/
def updateMinFreqStep (acc : Int) (b : Int × List K) : Int :=
  if !b.2.isEmpty then min acc b.1 else acc

def updateMinFreq (s : LFUState K V) : LFUState K V :=
  let m := s.buckets.foldl updateMinFreqStep 127
  { s with minFreq := if m = 127 then 1 else m }

/-- One iteration of the age-down loop on the bucket map: unlink the
node from the bucket of its current frequency, then relink it into the
bucket of its decremented (clamped) frequency. -/
def ageRebucket (d : Int) (bs : List (Int × List K)) (n : LFUNode K V) :
    List (Int × List K) :=
  addKB (lfuClamp (n.freq - d)) n.key (removeKB n.freq n.key bs)

/-- `LFUCache::handleOverMaxAverageNum`: for every node of `nodeMap_`,
unlink it from its current bucket, subtract `maxAverageNum_ / 2`
(truncating `int` division) from its frequency clamping at 1, relink it
into the bucket of its new frequency, then recompute `minFreq_`. -/
def handleOverMaxAverageNum (s : LFUState K V) : LFUState K V :=
  if s.nodeMap.isEmpty then s
  else
    let d := s.maxAverageNum.tdiv 2
    let bs' := s.nodeMap.foldl (ageRebucket d) s.buckets
    let nm' := s.nodeMap.map (fun n => { n with freq := lfuClamp (n.freq - d) })
    updateMinFreq { s with nodeMap := nm', buckets := bs' }

/-- `LFUCache::addFreqNum`: bump the total, recompute the average, and
run the age-down when the average exceeds `maxAverageNum_`. -/
def addFreqNum (s : LFUState K V) : LFUState K V :=
  let s1 := recomputeAvg { s with curTotalNum := s.curTotalNum + 1 }
  if s1.curAverageNum > s1.maxAverageNum then handleOverMaxAverageNum s1 else s1

/-- `LFUCache::decreaseFreqNum`: subtract the evicted node's frequency
from the total and recompute the average (no age-down check here). -/
def decreaseFreqNum (s : LFUState K V) (num : Int) : LFUState K V :=
  recomputeAvg { s with curTotalNum := s.curTotalNum - num }

/-- The state changes of `getInternal` up to and including the
`minFreq_` adjustment — everything before the final `addFreqNum` call:
unlink the node, `node->freq++`, relink into the next bucket, and bump
`minFreq_` when the emptied bucket was the minimum one. -/
def lfuTouch (s : LFUState K V) (k : K) : LFUState K V :=
  match lfuFind s k with
  | none => s
  | some n =>
    let n' : LFUNode K V := { n with freq := n.freq + 1 }
    let s2 : LFUState K V :=
      { s with nodeMap := setNode n' s.nodeMap,
               buckets := addKB n'.freq n'.key (removeKB n.freq n.key s.buckets) }
    if n'.freq - 1 = s2.minFreq ∧ (bucketOf s2 (n'.freq - 1)).isEmpty
      then { s2 with minFreq := s2.minFreq + 1 } else s2

/-- `LFUCache::getInternal` on the node holding `k` (the callers pass a
node freshly found in `nodeMap_`): the `lfuTouch` changes followed by
`addFreqNum`. -/
def lfuGetInternal (s : LFUState K V) (k : K) : LFUState K V :=
  match lfuFind s k with
  | none => s
  | some _ => addFreqNum (lfuTouch s k)

/-- The node's frequency field, read through the map (identical to the
field of the unique shared node object whenever the map and the buckets
are in sync). -/
def nodeFreqOf (s : LFUState K V) (k : K) : Int :=
  match lfuFind s k with
  | some n => n.freq
  | none => s.minFreq

/-- `LFUCache::kickOut`: take `getFirstNode()` of the `minFreq_` bucket.
When that bucket is non-empty this is its oldest node: unlink it, erase
its key from the map, and subtract its frequency from the total. When the
bucket is empty (or missing), `getFirstNode()` returns the bucket's tail
sentinel — a default-constructed node with key `Key()` and freq 1; the
unlink is a no-op (the sentinel's `next` is null), `nodeMap_.erase(Key())`
erases whatever entry has the default key, and the total shrinks by the
sentinel's freq 1. -/
def kickOut [Inhabited K] (s : LFUState K V) : LFUState K V :=
  match bucketOf s s.minFreq with
  | [] =>
    decreaseFreqNum { s with nodeMap := eraseNodeKey (default : K) s.nodeMap } 1
  | h :: _ =>
    let f := nodeFreqOf s h
    decreaseFreqNum
      { s with buckets := removeKB f h s.buckets,
               nodeMap := eraseNodeKey h s.nodeMap } f

/-- `LFUCache::putInternal`: evict when `nodeMap_.size() == capacity_`
(a `size_t` comparison), insert the fresh node with frequency 1 into
bucket 1, `addFreqNum`, then `minFreq_ = min(minFreq_, 1)`. -/
def putInternal [Inhabited K] (s : LFUState K V) (k : K) (v : V) : LFUState K V :=
  let s1 := if s.nodeMap.length = sizeT s.capacity then kickOut s else s
  let s2 : LFUState K V :=
    { s1 with nodeMap := s1.nodeMap ++ [⟨k, v, 1⟩],
              buckets := addKB 1 k s1.buckets }
  let s3 := addFreqNum s2
  { s3 with minFreq := min s3.minFreq 1 }

/-- `LFUCache::put`: note the guard is `capacity_ == 0`, not `<= 0`.
On a hit the value is overwritten and the access counts as a get. -/
def lfuPut [Inhabited K] (s : LFUState K V) (k : K) (v : V) : LFUState K V :=
  if s.capacity = 0 then s
  else
    match lfuFind s k with
    | some n => lfuGetInternal { s with nodeMap := setNode { n with value := v } s.nodeMap } k
    | none => putInternal s k v

/-- `LFUCache::get(Key, Value&)`: hit iff the key is indexed; the value
is read out before the frequency bump. -/
def lfuGet (s : LFUState K V) (k : K) : Option V × LFUState K V :=
  match lfuFind s k with
  | some n => (some n.value, lfuGetInternal s k)
  | none => (none, s)

/-- `LFUCache::purge`: clear `nodeMap_` and `freqToFreqList_`, leaving
every counter (and the capacity) untouched. -/
def lfuPurge (s : LFUState K V) : LFUState K V :=
  { s with nodeMap := [], buckets := [] }

/-- One public operation on an `LFUCache`. -/
inductive LFUOp (K V : Type) where
  | put (k : K) (v : V)
  | get (k : K)
  deriving Repr, DecidableEq

def lfuStep [Inhabited K] (s : LFUState K V) : LFUOp K V → LFUState K V
  | .put k v => lfuPut s k v
  | .get k => (lfuGet s k).2

def lfuRun [Inhabited K] (s : LFUState K V) : List (LFUOp K V) → LFUState K V
  | [] => s
  | op :: ops => lfuRun (lfuStep s op) ops

/-! ### Concrete runs exercising the `INT8_MAX` fallback of `updateMinFreq`

With `maxAverageNum = 1` every operation past the second triggers an
age-down that subtracts `1 / 2 = 0` from each frequency and recomputes
`minFreq_`; once every frequency is at least 127, the recompute falls
back to `minFreq_ = 1` although bucket 1 is empty. -/

/-- `LFUCache(1, 1)`: put key 0, then 125 gets of key 0 (frequency 126,
`minFreq_` still accurate). -/
def lfuAgeDownOps : List (LFUOp Nat Nat) :=
  .put 0 100 :: List.replicate 125 (.get 0)

/-- The state the 126th get's `getInternal` hands to
`handleOverMaxAverageNum` (frequency bumped to 127, bucket 126 emptied,
`minFreq_` advanced to 127, total bumped to 127, average recomputed to
127 > `maxAverageNum_` = 1): the single node has frequency 127; buckets
1..126 exist and are empty; bucket 127 holds key 0. -/
def lfuAgeDownInput : LFUState Nat Nat :=
  ⟨1, 127, 1, 127, 127, [⟨0, 100, 127⟩],
    ((List.range 126).map (fun i => ((i + 1 : Int), ([] : List Nat))))
      ++ [(127, [0])]⟩

/-- `LFUCache(2, 1)`: keys 0 and 5 are driven to frequencies 128 and 127;
the age-downs run on every later operation and, once both frequencies
reach 127, reset `minFreq_` to 1. -/
def lfuEvictCexOps : List (LFUOp Nat Nat) :=
  .put 0 100 :: .put 5 200 ::
    (List.replicate 126 (.get 5) ++ List.replicate 127 (.get 0))

/-- The resulting full cache: node 0 at frequency 128, node 5 at
frequency 127, `minFreq_ = 1`, bucket 1 empty. -/
def lfuEvictCexState : LFUState Nat Nat :=
  lfuRun (lfuInit 2 1) lfuEvictCexOps

/-! ### Well-formedness of an LFU state

The structural consistency the `LFUCache` code maintains between
`nodeMap_` and `freqToFreqList_`: keys are unique, every node is linked
in exactly the bucket of its own frequency, buckets hold only live
nodes and no duplicates, frequencies are at least 1. -/

structure LFUWFCore (s : LFUState K V) : Prop where
  mapNodup : (s.nodeMap.map LFUNode.key).Nodup
  freqNodup : (s.buckets.map Prod.fst).Nodup
  bNodup : ∀ b ∈ s.buckets, b.2.Nodup
  placed : ∀ n ∈ s.nodeMap, ∀ g : Int, (n.key ∈ lookupBucket s.buckets g ↔ g = n.freq)
  sound : ∀ g : Int, ∀ k ∈ lookupBucket s.buckets g, ∃ n ∈ s.nodeMap, n.key = k
  freqPos : ∀ n ∈ s.nodeMap, 1 ≤ n.freq

/-- Full well-formedness: the structural part, a non-negative aging
threshold (`maxAverageNum_ < 0` lets the age-down *increase* frequencies,
which desynchronises `minFreq_` through yet another path), `minFreq_ ≥ 1`,
and the accuracy of `minFreq_` whenever the minimal cached frequency is
below `INT8_MAX` (127) — at or above that threshold `updateMinFreq`'s
fallback can leave `minFreq_` at 1. -/
def LFUWF (s : LFUState K V) : Prop :=
  LFUWFCore s ∧ 0 ≤ s.maxAverageNum ∧ 1 ≤ s.minFreq ∧
    ∀ n ∈ s.nodeMap, n.freq < 127 → (∀ m ∈ s.nodeMap, n.freq ≤ m.freq) →
      s.minFreq = n.freq

/-- A step is *safe* when it is not a fresh-key put into a full cache
whose `minFreq_` bucket is empty (the one situation in which `kickOut`
dereferences the empty bucket's sentinel and the structures desynchronise
— reachable only through the `INT8_MAX` fallback of `updateMinFreq`). -/
def lfuSafeStep (s : LFUState K V) : LFUOp K V → Bool
  | .put k _ =>
    (lfuFind s k).isSome || !(s.nodeMap.length = sizeT s.capacity)
      || !(bucketOf s s.minFreq).isEmpty
  | .get _ => true

/-- All steps of the run are safe. -/
def lfuSafeRun [Inhabited K] (s : LFUState K V) : List (LFUOp K V) → Bool
  | [] => true
  | op :: ops => lfuSafeStep s op && lfuSafeRun (lfuStep s op) ops




/-! ### A small concrete LFU state used by witnesses

`LFUCache(2, 10)` after `put(1, 10); put(2, 20)`. -/

/-- The state of `LFUCache<int,int>(2, 10)` after `put(1,10); put(2,20)`. -/
def lfuC3WitState : LFUState Nat Nat :=
  lfuRun (lfuInit 2 10) [LFUOp.put 1 10, LFUOp.put 2 20]

/-! ### LRU-K (`LRUKCache`)

`LRUKCache<Key, Value>` derives from `LRUCache<Key, Value>` and adds a
history list `LRUCache<Key, size_t>`. Its `put` compares the base-cache
lookup against `""`, so it only instantiates for a string-like `Value`;
the embedding fixes `Value = String` accordingly (a miss of the
value-returning `get` yields the default-constructed `""`). -/

/-- The state of an `LRUKCache<Key, std::string>`: the base `LRUCache`
(`main`), the history `LRUCache<Key, size_t>` and the admission
threshold `k_`. -/
structure LRUKState (K : Type) where
  main : LRUState K String
  history : LRUState K Nat
  k : Int

/-- `LRUKCache(capacity, historyCapacity, k)`. -/
def lrukInit (capacity historyCapacity k : Int) : LRUKState K :=
  ⟨lruInit capacity, lruInit historyCapacity, k⟩

/-- `LRUKCache::get`: read the history count (0 on a miss), store the
incremented count back into the history list, then answer from the BASE
cache only — the main cache is never written here. -/
def lrukGet (s : LRUKState K) (key : K) : String × LRUKState K :=
  let h := lruGetV s.history key
  let historyCount : Nat := h.1 + 1
  let h2 := lruPut h.2 key historyCount
  let m := lruGetV s.main key
  (m.1, ⟨m.2, h2, s.k⟩)

/-- `LRUKCache::put`: overwrite the main entry only when the base lookup
returns a value `!= ""`; then bump the history count; when the bumped
count reaches `k_`, drop the history entry and admit the key into the
main cache. -/
def lrukPut (s : LRUKState K) (key : K) (value : String) : LRUKState K :=
  let m := lruGetV s.main key
  let m2 := if m.1 ≠ "" then lruPut m.2 key value else m.2
  let h := lruGetV s.history key
  let historyCount : Nat := h.1 + 1
  let h2 := lruPut h.2 key historyCount
  if (historyCount : Int) ≥ s.k then
    ⟨lruPut m2 key value, lruRemove h2 key, s.k⟩
  else
    ⟨m2, h2, s.k⟩

/-! ### ARC (`ARCCache`, `ARCLRUPart`, and a spec-modelled `ARCLFUPart`)

`ARCLRUPart` is embedded from `src/ARCCache/ARCLRUPart.h` verbatim,
including its `addToGhost`, which links the evicted node back into the
MAIN list (it writes through `mainHead_`, not `ghostHead_`), so the ghost
linked list anchored at `ghostHead_`/`ghostTail_` never receives a node
and `removeOldestGhost` always hits its `oldestGhost == ghostHead_`
early-return. `ghostCapacity_` is never initialised in the source; the
embedding takes it as an explicit construction parameter. -/

/-- An `ARCNode`: key, value and access count (`size_t`). -/
structure ARCNodeL (K V : Type) where
  key : K
  value : V
  accessCount : Nat
  deriving Repr, DecidableEq

/-- The state of an `ARCLRUPart`: capacities, the main linked list
(front = most recent), the ghost linked list, and the key sets of the
two hash maps `mainCache_` and `ghostCache_`. -/
structure ARCLRUState (K V : Type) where
  capacity : Nat
  ghostCapacity : Nat
  transformThreshold : Nat
  mainList : List (ARCNodeL K V)
  ghostList : List (ARCNodeL K V)
  mainKeys : List K
  ghostKeys : List K

/-- A fresh `ARCLRUPart(capacity, transformThreshold)` with the
(uninitialised, hence parametrised) ghost capacity. -/
def arcLruInit (capacity ghostCapacity transformThreshold : Nat) : ARCLRUState K V :=
  ⟨capacity, ghostCapacity, transformThreshold, [], [], [], []⟩

/-- Unlink the (first) node carrying `k` from a node list. -/
def arcEraseKey (k : K) : List (ARCNodeL K V) → List (ARCNodeL K V)
  | [] => []
  | n :: l => if n.key = k then l else n :: arcEraseKey k l

/-- `ARCLRUPart::removeOldestGhost`: `ghostTail_->prev_`; when the ghost
list is empty this is `ghostHead_` and the method returns immediately. -/
def removeOldestGhost (s : ARCLRUState K V) : ARCLRUState K V :=
  match s.ghostList.getLast? with
  | none => s
  | some g =>
    { s with ghostList := s.ghostList.dropLast,
             ghostKeys := s.ghostKeys.erase g.key }

/-- `ARCLRUPart::addToGhost`: reset the access count to 1, then link the
node through `mainHead_` — i.e. at the front of the MAIN list, not the
ghost list — and register the key in the `ghostCache_` map. -/
def addToGhost (s : ARCLRUState K V) (n : ARCNodeL K V) : ARCLRUState K V :=
  let n2 : ARCNodeL K V := { n with accessCount := 1 }
  { s with mainList := n2 :: s.mainList,
           ghostKeys := if n2.key ∈ s.ghostKeys then s.ghostKeys
                        else s.ghostKeys ++ [n2.key] }

/-- `ARCLRUPart::evictLeastRecent`: take `mainTail_->prev_` (the back of
the main list), unlink it, make room in the ghost map if it is at
capacity, `addToGhost` it, and erase its key from `mainCache_`. -/
def arcLruEvictLeastRecent (s : ARCLRUState K V) : ARCLRUState K V :=
  match s.mainList.getLast? with
  | none => s
  | some lr =>
    let s1 := { s with mainList := s.mainList.dropLast }
    let s2 := if s1.ghostKeys.length ≥ s1.ghostCapacity then removeOldestGhost s1 else s1
    let s3 := addToGhost s2 lr
    { s3 with mainKeys := s3.mainKeys.erase lr.key }

/-- `ARCLRUPart::addNewNode`. -/
def arcLruAddNewNode (s : ARCLRUState K V) (k : K) (v : V) : ARCLRUState K V :=
  let s1 := if s.mainKeys.length ≥ s.capacity then arcLruEvictLeastRecent s else s
  { s1 with mainList := ⟨k, v, 1⟩ :: s1.mainList,
            mainKeys := s1.mainKeys ++ [k] }

/-- `ARCLRUPart::updateExistingNode`: `setValue` + `moveToFront`. -/
def arcLruUpdateExisting (s : ARCLRUState K V) (k : K) (v : V) : ARCLRUState K V :=
  match s.mainList.find? (fun n => n.key = k) with
  | none => s
  | some n =>
    { s with mainList := { n with value := v } :: arcEraseKey k s.mainList }

/-- `ARCLRUPart::put`. -/
def arcLruPut (s : ARCLRUState K V) (k : K) (v : V) : Bool × ARCLRUState K V :=
  if s.capacity = 0 then (false, s)
  else if k ∈ s.mainKeys then (true, arcLruUpdateExisting s k v)
  else (true, arcLruAddNewNode s k v)

/-- `ARCLRUPart::get`: on a hit, `updateNodeAccess` (move to front,
increment the count, compare against `transformThreshold_`) and read the
value. -/
def arcLruGet (s : ARCLRUState K V) (k : K) : Option V × Bool × ARCLRUState K V :=
  if k ∈ s.mainKeys then
    match s.mainList.find? (fun n => n.key = k) with
    | some n =>
      let n2 : ARCNodeL K V := { n with accessCount := n.accessCount + 1 }
      (some n2.value, n2.accessCount ≥ s.transformThreshold,
        { s with mainList := n2 :: arcEraseKey k s.mainList })
    | none => (none, false, s)
  else (none, false, s)

/-- `ARCLRUPart::checkGhost`: on a ghost-map hit, `removeFromGhost`
unlinks the node from whatever list it is physically linked in — the
MAIN list, because `addToGhost` put it there — and erases the ghost-map
entry. -/
def arcLruCheckGhost (s : ARCLRUState K V) (k : K) : Bool × ARCLRUState K V :=
  if k ∈ s.ghostKeys then
    (true, { s with mainList := arcEraseKey k s.mainList,
                    ghostKeys := s.ghostKeys.erase k })
  else (false, s)

/-- `ARCLRUPart::increaseCapacity`. -/
def arcLruIncreaseCapacity (s : ARCLRUState K V) : ARCLRUState K V :=
  { s with capacity := s.capacity + 1 }

/-- `ARCLRUPart::decreaseCapacity`: reject at capacity 0 (`size_t`, so
`capacity_ <= 0` means `== 0`); evict first when the main map is exactly
full, then decrement. -/
def arcLruDecreaseCapacity (s : ARCLRUState K V) : Bool × ARCLRUState K V :=
  if s.capacity = 0 then (false, s)
  else
    let s1 := if s.mainKeys.length = s.capacity then arcLruEvictLeastRecent s else s
    (true, { s1 with capacity := s1.capacity - 1 })

/-- Modelled from the spec: `ARCLFUPart.h` is missing from `src/`, so the
LFU half follows §4.5 of the specification — a frequency-ordered real
list T2 with a key-only ghost list B2, symmetric capacity adaptation
(decrease rejected at 0, evict when shrinking below occupancy). Entries
are `(key, value, frequency)`. -/
structure ARCLFUState (K V : Type) where
  capacity : Nat
  ghostCapacity : Nat
  transformThreshold : Nat
  entries : List (K × V × Int)
  ghostList : List K

/-- Modelled from the spec: a fresh LFU half. -/
def arcLfuInit (capacity ghostCapacity transformThreshold : Nat) : ARCLFUState K V :=
  ⟨capacity, ghostCapacity, transformThreshold, [], []⟩

/-- Modelled from the spec: remove the (first) entry carrying `k`. -/
def arcLfuEraseKey (k : K) : List (K × V × Int) → List (K × V × Int)
  | [] => []
  | e :: l => if e.1 = k then l else e :: arcLfuEraseKey k l

/-- Modelled from the spec: evict the oldest minimum-frequency entry into
the ghost list, trimming the ghost list to its capacity. -/
def arcLfuEvict (s : ARCLFUState K V) : ARCLFUState K V :=
  match s.entries.foldl
      (fun acc e => match acc with
        | none => some e
        | some m => if e.2.2 < m.2.2 then some e else acc) none with
  | none => s
  | some m =>
    let g1 := if s.ghostList.length ≥ s.ghostCapacity
              then s.ghostList.dropLast else s.ghostList
    { s with entries := arcLfuEraseKey m.1 s.entries,
             ghostList := m.1 :: g1 }

/-- Modelled from the spec: `put` into the LFU half. -/
def arcLfuPut (s : ARCLFUState K V) (k : K) (v : V) : ARCLFUState K V :=
  if s.capacity = 0 then s
  else
    match s.entries.find? (fun e => e.1 = k) with
    | some e => { s with entries := (k, v, e.2.2 + 1) :: arcLfuEraseKey k s.entries }
    | none =>
      let s1 := if s.entries.length ≥ s.capacity then arcLfuEvict s else s
      { s1 with entries := s1.entries ++ [(k, v, 1)] }

/-- Modelled from the spec: `get` from the LFU half. -/
def arcLfuGet (s : ARCLFUState K V) (k : K) : Option V × ARCLFUState K V :=
  match s.entries.find? (fun e => e.1 = k) with
  | some e => (some e.2.1,
      { s with entries := (k, e.2.1, e.2.2 + 1) :: arcLfuEraseKey k s.entries })
  | none => (none, s)

/-- Modelled from the spec: ghost lookup removes the hit ghost. -/
def arcLfuCheckGhost (s : ARCLFUState K V) (k : K) : Bool × ARCLFUState K V :=
  if k ∈ s.ghostList then (true, { s with ghostList := s.ghostList.erase k })
  else (false, s)

/-- Modelled from the spec. -/
def arcLfuIncreaseCapacity (s : ARCLFUState K V) : ARCLFUState K V :=
  { s with capacity := s.capacity + 1 }

/-- Modelled from the spec: symmetric to the LRU half's decrease. -/
def arcLfuDecreaseCapacity (s : ARCLFUState K V) : Bool × ARCLFUState K V :=
  if s.capacity = 0 then (false, s)
  else
    let s1 := if s.entries.length = s.capacity then arcLfuEvict s else s
    (true, { s1 with capacity := s1.capacity - 1 })

/-- An `ARCCache`: total capacity, transform threshold, and the two
halves — both constructed with the FULL total capacity
(`ARCCache.h` line 14 passes `capacity` to each part). -/
structure ARCState (K V : Type) where
  capacity : Nat
  transformThreshold : Nat
  lru : ARCLRUState K V
  lfu : ARCLFUState K V

/-- `ARCCache(capacity, transformThreshold)`, with the uninitialised
ghost capacity as an explicit parameter. -/
def arcInit (capacity transformThreshold ghostCapacity : Nat) : ARCState K V :=
  ⟨capacity, transformThreshold,
    arcLruInit capacity ghostCapacity transformThreshold,
    arcLfuInit capacity ghostCapacity transformThreshold⟩

/-- `ARCCache::checkGhostCaches`: an LRU-ghost hit shifts one unit of
capacity from the LFU half to the LRU half (only when the LFU half can
still shrink); an LFU-ghost hit does the opposite. -/
def checkGhostCaches (s : ARCState K V) (k : K) : Bool × ARCState K V :=
  let p := arcLruCheckGhost s.lru k
  if p.1 then
    let q := arcLfuDecreaseCapacity s.lfu
    let lru2 := if q.1 then arcLruIncreaseCapacity p.2 else p.2
    (true, { s with lru := lru2, lfu := q.2 })
  else
    let r := arcLfuCheckGhost s.lfu k
    if r.1 then
      let q := arcLruDecreaseCapacity p.2
      let lfu2 := if q.1 then arcLfuIncreaseCapacity r.2 else r.2
      (true, { s with lru := q.2, lfu := lfu2 })
    else
      (false, { s with lru := p.2, lfu := r.2 })

/-- `ARCCache::put`. -/
def arcPut (s : ARCState K V) (k : K) (v : V) : ARCState K V :=
  let c := checkGhostCaches s k
  let s1 := c.2
  if !c.1 then
    let p := arcLruPut s1.lru k v
    if p.1 then { s1 with lru := p.2, lfu := arcLfuPut s1.lfu k v }
    else { s1 with lru := p.2 }
  else
    { s1 with lru := (arcLruPut s1.lru k v).2 }

/-- `ARCCache::get`. -/
def arcGet (s : ARCState K V) (k : K) : Option V × ARCState K V :=
  let c := checkGhostCaches s k
  let s1 := c.2
  let g := arcLruGet s1.lru k
  match g.1 with
  | some v =>
    let s2 := { s1 with lru := g.2.2 }
    if g.2.1 then (some v, { s2 with lfu := arcLfuPut s2.lfu k v })
    else (some v, s2)
  | none =>
    let f := arcLfuGet s1.lfu k
    (f.1, { s1 with lru := g.2.2, lfu := f.2 })

/-- One public operation on an `ARCCache`. -/
inductive ARCOp (K V : Type) where
  | put (k : K) (v : V)
  | get (k : K)

def arcStep (s : ARCState K V) : ARCOp K V → ARCState K V
  | .put k v => arcPut s k v
  | .get k => (arcGet s k).2

def arcRun (s : ARCState K V) : List (ARCOp K V) → ARCState K V
  | [] => s
  | op :: ops => arcRun (arcStep s op) ops

/-! ### Concrete LRU-K and ARC runs used by the scenario claims -/

/-- `LRUKCache<int, std::string>(2, 10, 3)` — main capacity 2, history
capacity 10, admission threshold `k_ = 3`. -/
def lrukS0 : LRUKState Nat := lrukInit 2 10 3

/-- `n` consecutive `get(1)` calls on `lrukS0`. -/
def lrukGetN : Nat → LRUKState Nat
  | 0 => lrukS0
  | n + 1 => (lrukGet (lrukGetN n) 1).2

/-- `n` consecutive `put(1, "v")` calls on `lrukS0`. -/
def lrukPutN : Nat → LRUKState Nat
  | 0 => lrukS0
  | n + 1 => lrukPut (lrukPutN n) 1 "v"

/-- An LRU-K cache whose main cache already holds key 1. -/
def lrukPresentState : LRUKState Nat :=
  ⟨⟨2, [(1, "old")]⟩, lruInit 10, 3⟩

/-- `ARCLRUPart<int,int>` with capacity 1 (ghost capacity 1, transform
threshold 2) after `put(10,100); get(10); put(20,200)` — the second put
evicts node 10 (whose access count the get had raised to 2). -/
def arcC6S2 : ARCLRUState Nat Nat :=
  (arcLruPut (arcLruGet (arcLruPut (arcLruInit 1 1 2) 10 100).2 10).2.2 20 200).2

/-- `arcC6S2` after a further `put(30,300)`. -/
def arcC6S3 : ARCLRUState Nat Nat := (arcLruPut arcC6S2 30 300).2

/-- Invariant of the age-down loop over `nodeMap_`: `todo` nodes are
still linked at their old frequency, `done` nodes at their new (clamped)
frequency, every bucket is duplicate-free, and buckets hold only keys of
`todo`/`done` nodes. -/
def lfuAgingInv (d : Int) (todo done : List (LFUNode K V))
    (bs : List (Int × List K)) : Prop :=
  (∀ g : Int, (lookupBucket bs g).Nodup) ∧
  (∀ n ∈ todo, ∀ g : Int, (n.key ∈ lookupBucket bs g ↔ g = n.freq)) ∧
  (∀ n ∈ done, ∀ g : Int, (n.key ∈ lookupBucket bs g ↔ g = lfuClamp (n.freq - d))) ∧
  (∀ g : Int, ∀ k ∈ lookupBucket bs g,
    (∃ n ∈ todo, n.key = k) ∨ (∃ n ∈ done, n.key = k))

/-! ### Theorems -/


theorem nodup_firstDedup (l : List K) : (firstDedup l).Nodup := by
  induction l with
  | nil => simp [firstDedup]
  | cons a l ih =>
    simp only [firstDedup, List.nodup_cons]
    refine ⟨?_, ih.filter _⟩
    simp

theorem firstDedup_cons (a : K) (l : List K) :
    firstDedup (a :: l) = a :: (firstDedup l).filter (fun b => b ≠ a) := rfl

/-! ### List lemmas for the LRU characterisation -/

theorem filter_ne_eq_self {k : K} {l : List K} (h : k ∉ l) :
    l.filter (fun b => b ≠ k) = l := by
  refine List.filter_eq_self.mpr ?_
  intro a ha
  simp only [decide_eq_true_eq]
  exact fun hak => h (hak ▸ ha)

theorem filter_take_of_mem_take {k : K} :
    ∀ (D : List K) (C : Nat), D.Nodup → k ∈ D.take C →
      (D.take C).filter (fun b => b ≠ k) =
        (D.filter (fun b => b ≠ k)).take (C - 1) := by
  intro D
  induction D with
  | nil => intro C _ hk; simp at hk
  | cons d D ih =>
    intro C hnd hk
    match C with
    | 0 => simp at hk
    | Nat.succ c =>
      simp only [List.take_succ_cons] at hk ⊢
      rcases List.nodup_cons.mp hnd with ⟨hdD, hD⟩
      by_cases hdk : d = k
      · subst hdk
        have hdtake : d ∉ D.take c := fun hmem => hdD (List.mem_of_mem_take hmem)
        have hfe : (decide (d ≠ d)) = false := by simp
        simp only [List.filter_cons, hfe, Bool.false_eq_true, if_false]
        rw [filter_ne_eq_self hdtake, filter_ne_eq_self hdD]
        rfl
      · have hk' : k ∈ D.take c := by
          rcases List.mem_cons.mp hk with h | h
          · exact absurd h.symm hdk
          · exact h
        have hc : 1 ≤ c := by
          rcases c with _ | c
          · simp at hk'
          · exact Nat.succ_le_succ (Nat.zero_le c)
        simp only [List.filter_cons]
        have hdkb : (decide (d ≠ k)) = true := by simp [hdk]
        rw [hdkb]
        simp only [if_true]
        rw [ih c hD hk']
        have h1 : Nat.succ c - 1 = c := rfl
        rw [h1]
        rcases Nat.exists_eq_add_of_le hc with ⟨c', rfl⟩
        have h2 : 1 + c' = Nat.succ c' := by omega
        rw [h2, List.take_succ_cons]
        rfl

theorem filter_take_of_not_mem_take {k : K} :
    ∀ (D : List K) (C : Nat), k ∉ D.take (C + 1) →
      (D.filter (fun b => b ≠ k)).take C = D.take C := by
  intro D
  induction D with
  | nil => intro C _; simp
  | cons d D ih =>
    intro C hk
    simp only [List.take_succ_cons, List.mem_cons, not_or] at hk
    obtain ⟨hdk, hk⟩ := hk
    have hdkb : (decide (d ≠ k)) = true := by
      simp only [decide_eq_true_eq]
      exact fun h => hdk h.symm
    simp only [List.filter_cons, hdkb, if_true]
    match C with
    | 0 => simp
    | Nat.succ c =>
      simp only [List.take_succ_cons]
      rw [ih c (by simpa using hk)]

theorem map_fst_eraseKey (k : K) :
    ∀ l : List (K × V), (eraseKey k l).map Prod.fst = (l.map Prod.fst).erase k := by
  intro l
  induction l with
  | nil => rfl
  | cons p l ih =>
    by_cases hp : p.1 = k
    · simp [eraseKey, hp, List.erase_cons_head]
    · simp only [eraseKey, hp, if_false, List.map_cons]
      rw [List.erase_cons_tail, ih]
      simp [hp]

theorem lruInvC1_hit (cap : Int) (h1 : 1 ≤ cap)
    (st : LRUState K V × List K) (k : K) (v : V)
    (hinv : lruInvC1 cap st) (hk : k ∈ st.1.list.map Prod.fst) :
    lruInvC1 cap (lruMoveToMostRecent st.1 k v, k :: st.2) := by
  obtain ⟨hcap, hmru⟩ := hinv
  refine ⟨hcap, ?_⟩
  set D := firstDedup st.2 with hDdef
  have hD : D.Nodup := nodup_firstDedup _
  have hmrund : (mruKeys st.1).Nodup := by
    rw [hmru]; exact (hD.sublist (List.take_sublist _ _))
  have hkeysnd : (st.1.list.map Prod.fst).Nodup := by
    have := hmrund
    unfold mruKeys at this
    exact List.nodup_reverse.mp this
  have hkmru : k ∈ mruKeys st.1 := by
    unfold mruKeys; exact List.mem_reverse.mpr hk
  have hktake : k ∈ D.take cap.toNat := hmru ▸ hkmru
  have hCpos : 1 ≤ cap.toNat := by
    have : (1 : Int).toNat ≤ cap.toNat := Int.toNat_le_toNat h1
    simpa using this
  obtain ⟨c, hc⟩ : ∃ c, cap.toNat = c + 1 :=
    ⟨cap.toNat - 1, by omega⟩
  show mruKeys (lruMoveToMostRecent st.1 k v)
      = List.take cap.toNat (firstDedup (k :: st.2))
  unfold mruKeys lruMoveToMostRecent
  simp only [List.map_append, List.map_cons, List.map_nil, List.reverse_append,
    List.reverse_cons, List.reverse_nil, List.nil_append, List.cons_append]
  rw [map_fst_eraseKey, hkeysnd.erase_eq_filter k]
  have hfb : (fun x => x != k) = (fun b => decide (b ≠ k)) := by
    funext x
    by_cases hx : x = k <;> simp [hx]
  rw [hfb, ← List.filter_reverse]
  show k :: (mruKeys st.1).filter (fun b => b ≠ k) = _
  rw [hmru, firstDedup_cons, hc, List.take_succ_cons,
    filter_take_of_mem_take D (c + 1) hD (hc ▸ hktake)]
  rfl

theorem lruStepT_inv (cap : Int) (h1 : 1 ≤ cap) (h2 : cap < 2 ^ 31)
    (st : LRUState K V × List K) (op : LRUOp K V)
    (hinv : lruInvC1 cap st) : lruInvC1 cap (lruStepT st op) := by
  obtain ⟨hcap, hmru⟩ := hinv
  have hD : (firstDedup st.2).Nodup := nodup_firstDedup _
  cases op with
  | get k =>
    cases hfind : lruFind st.1 k with
    | none =>
      have hstep : lruStepT st (.get k) = (st.1, st.2) := by
        simp [lruStepT, lruGet, hfind]
      rw [hstep]
      exact ⟨hcap, hmru⟩
    | some p =>
      have hstep : lruStepT st (.get k)
          = (lruMoveToMostRecent st.1 k p.2, k :: st.2) := by
        simp [lruStepT, lruGet, hfind]
      rw [hstep]
      have hpk : p.1 = k := by
        have := List.find?_some hfind
        simpa using this
      have hk : k ∈ st.1.list.map Prod.fst := by
        have hp : p ∈ st.1.list := List.mem_of_find?_eq_some hfind
        exact hpk ▸ List.mem_map_of_mem Prod.fst hp
      exact lruInvC1_hit cap h1 st k p.2 ⟨hcap, hmru⟩ hk
  | put k v =>
    have hnle : ¬ st.1.capacity ≤ 0 := by omega
    cases hfind : lruFind st.1 k with
    | some p =>
      have hstep : lruStepT st (.put k v)
          = (lruMoveToMostRecent st.1 k v, k :: st.2) := by
        simp [lruStepT, lruPut, hfind, if_neg hnle]
      rw [hstep]
      have hpk : p.1 = k := by
        have := List.find?_some hfind
        simpa using this
      have hk : k ∈ st.1.list.map Prod.fst := by
        have hp : p ∈ st.1.list := List.mem_of_find?_eq_some hfind
        exact hpk ▸ List.mem_map_of_mem Prod.fst hp
      exact lruInvC1_hit cap h1 st k v ⟨hcap, hmru⟩ hk
    | none =>
      have hstep : lruStepT st (.put k v)
          = (lruAddNewNode st.1 k v, k :: st.2) := by
        simp [lruStepT, lruPut, hfind, if_neg hnle]
      rw [hstep]
      -- fresh key: k is on no node of the list
      have hknot : k ∉ st.1.list.map Prod.fst := by
        intro hmem
        obtain ⟨p, hp, hpk⟩ := List.mem_map.mp hmem
        have := List.find?_eq_none.mp hfind p hp
        simp [hpk] at this
      have hknotmru : k ∉ mruKeys st.1 := by
        unfold mruKeys
        exact fun h => hknot (List.mem_reverse.mp h)
      set D := firstDedup st.2 with hDdef
      have hknottake : k ∉ D.take cap.toNat := hmru ▸ hknotmru
      have hCpos : 1 ≤ cap.toNat := by
        have : (1 : Int).toNat ≤ cap.toNat := Int.toNat_le_toNat h1
        simpa using this
      obtain ⟨c, hc⟩ : ∃ c, cap.toNat = c + 1 := ⟨cap.toNat - 1, by omega⟩
      have hsz : sizeT st.1.capacity = cap.toNat := by
        rw [hcap]; exact sizeT_of_nonneg (by omega) (by
          have : (2 : Int) ^ 31 < 2 ^ 64 := by norm_num
          omega)
      have hlen : st.1.list.length = (D.take cap.toNat).length := by
        have hl2 : st.1.list.length = (mruKeys st.1).length := by
          unfold mruKeys; simp
        rw [hl2, hmru]
      refine ⟨?_, ?_⟩
      · show (lruAddNewNode st.1 k v).capacity = cap
        simp only [lruAddNewNode, lruEvictLeastRecent]
        split <;> exact hcap
      show mruKeys (lruAddNewNode st.1 k v)
          = List.take cap.toNat (firstDedup (k :: st.2))
      unfold mruKeys
      simp only [lruAddNewNode, lruEvictLeastRecent, hsz]
      by_cases hfull : st.1.list.length ≥ cap.toNat
      · -- cache already at capacity: the LRU node (list head) is evicted
        have hfull' : (D.take cap.toNat).length = cap.toNat := by
          rw [List.length_take] at hlen ⊢
          omega
        rw [if_pos hfull]
        simp only [List.map_append, List.map_cons, List.map_nil,
          List.reverse_append, List.reverse_cons, List.reverse_nil,
          List.nil_append, List.cons_append, List.map_tail]
        have htail : (st.1.list.map Prod.fst).tail.reverse
            = (mruKeys st.1).dropLast := by
          unfold mruKeys
          rw [List.dropLast_reverse]
        show k :: (st.1.list.map Prod.fst).tail.reverse = _
        rw [htail, hmru, firstDedup_cons, ← hDdef, hc, List.take_succ_cons]
        rw [List.dropLast_eq_take]
        have hfull2 : (List.take (c + 1) D).length = c + 1 := by
          rw [← hc]; exact hfull'
        rw [hfull2]
        have hcc : c + 1 - 1 = c := rfl
        rw [hcc, List.take_take]
        have hmin : min c (c + 1) = c := by omega
        rw [hmin]
        rw [filter_take_of_not_mem_take D c (by rw [← hc]; exact hknottake)]
      · -- still below capacity: no eviction
        rw [if_neg hfull]
        simp only [List.map_append, List.map_cons, List.map_nil,
          List.reverse_append, List.reverse_cons, List.reverse_nil,
          List.nil_append, List.cons_append]
        show k :: mruKeys st.1 = _
        have hDshort : D.length < cap.toNat := by
          rw [List.length_take] at hlen
          omega
        have htakeD : D.take cap.toNat = D :=
          List.take_of_length_le (le_of_lt hDshort)
        have hknotD : k ∉ D := htakeD ▸ hknottake
        rw [hmru, firstDedup_cons, ← hDdef, hc, List.take_succ_cons,
          filter_ne_eq_self hknotD]
        have hDle : D.length ≤ c := by omega
        rw [List.take_of_length_le (Nat.le_succ_of_le hDle),
          List.take_of_length_le hDle]

theorem lruRunTFrom_inv (cap : Int) (h1 : 1 ≤ cap) (h2 : cap < 2 ^ 31) :
    ∀ (ops : List (LRUOp K V)) (st : LRUState K V × List K),
      lruInvC1 cap st → lruInvC1 cap (lruRunTFrom st ops) := by
  intro ops
  induction ops with
  | nil => intro st h; exact h
  | cons op ops ih =>
    intro st h
    exact ih (lruStepT st op) (lruStepT_inv cap h1 h2 st op h)

/-- **C1.** For an `LRUCache` of capacity `C ≥ 1` (a C++ `int`, so
`C < 2^31`), after any sequence of `put`/`get` operations starting from a
fresh cache: the index holds at most `C` keys, the recency order (most
recently used first) is exactly the sequence of distinct touched keys,
most recently touched first, truncated at `C` — where a key is touched by
every `put` and by every successful `get` — and hence the key set of the
index is exactly the last `C` distinct touched keys. -/
theorem lru_index_is_last_C_distinct_touched (cap : Int)
    (ops : List (LRUOp K V)) (h1 : 1 ≤ cap) (h2 : cap < 2 ^ 31) :
    (lruRunT cap ops).1.list.length ≤ cap.toNat ∧
    mruKeys (lruRunT cap ops).1
      = (firstDedup (lruRunT cap ops).2).take cap.toNat ∧
    ∀ k : K, (lruFind (lruRunT cap ops).1 k).isSome
      ↔ k ∈ (firstDedup (lruRunT cap ops).2).take cap.toNat := by
  have hinit : lruInvC1 cap ((lruInit cap : LRUState K V), ([] : List K)) := by
    constructor
    · rfl
    · simp [mruKeys, lruInit, firstDedup]
  have h := lruRunTFrom_inv cap h1 h2 ops _ hinit
  obtain ⟨hcap, hmru0⟩ := h
  have hmru : mruKeys (lruRunT cap ops).1
      = (firstDedup (lruRunT cap ops).2).take cap.toNat := hmru0
  refine ⟨?_, hmru, ?_⟩
  · have hl : (lruRunT cap ops).1.list.length
        = (mruKeys (lruRunT cap ops).1).length := by
      unfold mruKeys; simp
    rw [hl, hmru, List.length_take]
    omega
  · intro k
    rw [← hmru]
    unfold lruFind mruKeys
    rw [List.find?_isSome, List.mem_reverse, List.mem_map]
    constructor
    · rintro ⟨p, hp, hpk⟩
      exact ⟨p, hp, by simpa using hpk⟩
    · rintro ⟨p, hp, hpk⟩
      exact ⟨p, hp, by simpa using hpk⟩

/-- Witness for `lru_index_is_last_C_distinct_touched`: capacity 2 with
the operations put 1, put 2, get 1, put 3; the touched keys are
`[3, 1, 2, 1]` (most recent first), the distinct ones `[3, 1, 2]`, and
the index holds exactly `[3, 1]` in recency order. -/
theorem lru_index_is_last_C_distinct_touched_witness :
    ((1 : Int) ≤ 2 ∧ (2 : Int) < 2 ^ 31) ∧
    ((lruRunT 2 [.put 1 10, .put 2 20, .get 1, .put 3 30]
        : LRUState Nat Nat × List Nat).1.list.length ≤ (2 : Int).toNat ∧
      mruKeys (lruRunT 2 [.put 1 10, .put 2 20, .get 1, .put 3 30]
        : LRUState Nat Nat × List Nat).1
        = (firstDedup (lruRunT (K := Nat) (V := Nat) 2
            [.put 1 10, .put 2 20, .get 1, .put 3 30]).2).take (2 : Int).toNat ∧
      ∀ k : Nat, (lruFind (lruRunT (K := Nat) (V := Nat) 2
            [.put 1 10, .put 2 20, .get 1, .put 3 30]).1 k).isSome
        ↔ k ∈ (firstDedup (lruRunT (K := Nat) (V := Nat) 2
            [.put 1 10, .put 2 20, .get 1, .put 3 30]).2).take (2 : Int).toNat) :=
  ⟨⟨by decide, by decide⟩,
    lru_index_is_last_C_distinct_touched 2 _ (by decide) (by decide)⟩

/-- **C8.** LRU eviction order, spec scenario S1: capacity 2;
put(A,1); put(B,2); get(A); put(C,3) leaves the cache with B evicted:
get(B) misses, get(A) hits returning 1, get(C) hits returning 3
(keys A,B,C are 1,2,3 here). -/
theorem lru_scenario_S1_eviction_order :
    (lruGet (lruRun (lruInit 2)
        [.put 1 1, .put 2 2, .get 1, .put 3 3]) 2).1 = none ∧
    (lruGet (lruGet (lruRun (K := Nat) (V := Nat) (lruInit 2)
        [.put 1 1, .put 2 2, .get 1, .put 3 3]) 2).2 1).1 = some 1 ∧
    (lruGet (lruGet (lruGet (lruRun (K := Nat) (V := Nat) (lruInit 2)
        [.put 1 1, .put 2 2, .get 1, .put 3 3]) 2).2 1).2 3).1 = some 3 := by
  decide

/-- With `capacity_ ≤ 0`, every `LRUCache` operation leaves the fresh
state unchanged (`put` returns before touching anything; `get` misses on
the empty map). -/
theorem lruRun_nonpos_capacity (cap : Int) (hc : cap ≤ 0) :
    ∀ ops : List (LRUOp K V), lruRun (lruInit cap) ops = lruInit cap := by
  have hstep : ∀ op : LRUOp K V, lruStep (lruInit cap) op = lruInit cap := by
    intro op
    cases op with
    | put k v => simp [lruStep, lruPut, lruInit, hc]
    | get k => simp [lruStep, lruGet, lruFind, lruInit]
  intro ops
  induction ops with
  | nil => rfl
  | cons op ops ih => rw [lruRun, hstep op, ih]

/-- With `capacity_ == 0`, every `LFUCache` operation leaves the fresh
state unchanged (`put` returns at the guard; `get` misses on the empty
map). -/
theorem lfuRun_zero_capacity [Inhabited K] (maxAv : Int) :
    ∀ ops : List (LFUOp K V),
      lfuRun (lfuInit 0 maxAv) ops = lfuInit 0 maxAv := by
  have hstep : ∀ op : LFUOp K V, lfuStep (lfuInit 0 maxAv) op = lfuInit 0 maxAv := by
    intro op
    cases op with
    | put k v => simp [lfuStep, lfuPut, lfuInit]
    | get k => simp [lfuStep, lfuGet, lfuFind, lfuInit]
  intro ops
  induction ops with
  | nil => rfl
  | cons op ops ih => rw [lfuRun, hstep op, ih]

/-- **C2 (counterexample).** The claim extends the capacity-`≤ 0` no-op
behaviour to *negative* capacities of both caches, but `LFUCache::put`
only guards `capacity_ == 0`: with capacity −1 the put inserts (the
full-cache test compares the size against `size_t(-1) = 2^64 − 1`) and
the following get hits and returns the value. -/
theorem lfu_negative_capacity_counterexample :
    (lfuGet (lfuRun (lfuInit (-1) 10) [.put 0 5]) (0 : Nat)).1 = some (5 : Nat) := by
  decide

/-- **C2 (amended).** Construction always succeeds; for an `LRUCache`
with any capacity ≤ 0 and for an `LFUCache` with capacity exactly 0,
every sequence of puts and gets leaves the cache in its freshly
constructed state and every get misses. (For an `LFUCache` with negative
capacity the guard `capacity_ == 0` does not fire and puts insert.) -/
theorem capacity_nonpos_put_noop_get_miss :
    (∀ cap : Int, cap ≤ 0 → ∀ ops : List (LRUOp K V),
      lruRun (lruInit cap) ops = lruInit cap ∧
      ∀ k : K, (lruGet (lruRun (lruInit cap) ops) k).1 = none) ∧
    (∀ maxAv : Int, ∀ ops : List (LFUOp Nat V),
      lfuRun (lfuInit 0 maxAv) ops = lfuInit 0 maxAv ∧
      ∀ k : Nat, (lfuGet (lfuRun (lfuInit 0 maxAv) ops) k).1 = none) := by
  constructor
  · intro cap hc ops
    refine ⟨lruRun_nonpos_capacity cap hc ops, ?_⟩
    intro k
    rw [lruRun_nonpos_capacity cap hc ops]
    simp [lruGet, lruFind, lruInit]
  · intro maxAv ops
    refine ⟨lfuRun_zero_capacity maxAv ops, ?_⟩
    intro k
    rw [lfuRun_zero_capacity maxAv ops]
    simp [lfuGet, lfuFind, lfuInit]

/-- Witness for `capacity_nonpos_put_noop_get_miss`: an `LRUCache(-2)`
and an `LFUCache(0, 10)` under put 1 / get 1 stay empty and miss. -/
theorem capacity_nonpos_put_noop_get_miss_witness :
    ((-2 : Int) ≤ 0 ∧
      lruRun (lruInit (-2)) [.put 1 7, .get 1] = (lruInit (-2) : LRUState Nat Nat) ∧
      (lruGet (lruRun (K := Nat) (V := Nat) (lruInit (-2)) [.put 1 7, .get 1]) 1).1 = none) ∧
    (lfuRun (lfuInit 0 10) [.put 1 7, .get 1] = (lfuInit 0 10 : LFUState Nat Nat) ∧
      (lfuGet (lfuRun (K := Nat) (V := Nat) (lfuInit 0 10) [.put 1 7, .get 1]) 1).1 = none) := by
  refine ⟨⟨by decide, ?_, ?_⟩, ?_, ?_⟩
  · exact ((capacity_nonpos_put_noop_get_miss (K := Nat) (V := Nat)).1
      (-2) (by decide) [.put 1 7, .get 1]).1
  · exact ((capacity_nonpos_put_noop_get_miss (K := Nat) (V := Nat)).1
      (-2) (by decide) [.put 1 7, .get 1]).2 1
  · exact ((capacity_nonpos_put_noop_get_miss (K := Nat) (V := Nat)).2
      10 [.put 1 7, .get 1]).1
  · exact ((capacity_nonpos_put_noop_get_miss (K := Nat) (V := Nat)).2
      10 [.put 1 7, .get 1]).2 1

/-- **C10.** `LFUCache::purge` empties the key index and the bucket map
— so every subsequent get misses for every key — while leaving
`capacity_`, `minFreq_`, `maxAverageNum_`, `curAverageNum_` and
`curTotalNum_` exactly as they were before the purge (the aging
counters keep influencing aging once the cache is repopulated). -/
theorem lfu_purge_empties_but_keeps_counters (s : LFUState K V) :
    (lfuPurge s).nodeMap = [] ∧
    (lfuPurge s).buckets = [] ∧
    (lfuPurge s).capacity = s.capacity ∧
    (lfuPurge s).minFreq = s.minFreq ∧
    (lfuPurge s).maxAverageNum = s.maxAverageNum ∧
    (lfuPurge s).curAverageNum = s.curAverageNum ∧
    (lfuPurge s).curTotalNum = s.curTotalNum ∧
    ∀ k : K, (lfuGet (lfuPurge s) k).1 = none := by
  refine ⟨rfl, rfl, rfl, rfl, rfl, rfl, rfl, ?_⟩
  intro k
  simp [lfuGet, lfuFind, lfuPurge]

set_option maxHeartbeats 1000000 in
/-- **C4 (counterexample).** An age-down that runs while every cached
frequency is at least 127 does *not* recompute `minFreq_` as the smallest
frequency with a non-empty bucket: `updateMinFreq` starts its scan at
`INT8_MAX` (127) and then falls back to 1. Concretely, on `LFUCache(1, 1)`
after put 0 and 125 gets of 0, the 126th get hands
`handleOverMaxAverageNum` the state `lfuAgeDownInput` (single key 0 at
frequency 127); the age-down leaves bucket 127 = `[0]` non-empty, every
bucket below 127 empty, and still sets `minFreq_ = 1`. -/
theorem lfu_age_down_minfreq_fallback_counterexample :
    (lfuGet (lfuRun (lfuInit 1 1) lfuAgeDownOps) 0).2
        = handleOverMaxAverageNum lfuAgeDownInput ∧
    lfuAgeDownInput.curAverageNum > lfuAgeDownInput.maxAverageNum ∧
    (handleOverMaxAverageNum lfuAgeDownInput).minFreq = 1 ∧
    bucketOf (handleOverMaxAverageNum lfuAgeDownInput) 127 = [0] ∧
    (∀ b ∈ (handleOverMaxAverageNum lfuAgeDownInput).buckets,
      b.1 < 127 → b.2 = []) := by
  decide

set_option maxHeartbeats 4000000 in
/-- **C3 (counterexample).** A put on a full `LFUCache` can evict a key
whose frequency is *not* minimal. On `LFUCache(2, 1)` after
`lfuEvictCexOps`, the cache is full with key 0 at frequency 128 and key 5
at frequency 127, but `minFreq_` has been reset to 1 by the `INT8_MAX`
fallback; `put 7` then reads the empty frequency-1 bucket, whose
`getFirstNode()` is the sentinel carrying the default key `Key() = 0`,
and erases key 0 (frequency 128) although key 5 holds the minimum
frequency 127. -/
theorem lfu_eviction_not_min_freq_counterexample :
    lfuEvictCexState.nodeMap
        = [⟨0, 100, 128⟩, ⟨5, 200, 127⟩] ∧
    lfuEvictCexState.nodeMap.length = sizeT lfuEvictCexState.capacity ∧
    lfuFind lfuEvictCexState 7 = none ∧
    (lfuPut lfuEvictCexState 7 300).nodeMap.map LFUNode.key = [5, 7] := by
  decide

/-! ### Bucket-map lemmas -/

theorem lookupBucket_nil (g : Int) : lookupBucket ([] : List (Int × List K)) g = [] := rfl

theorem lookupBucket_cons (b : Int × List K) (bs : List (Int × List K)) (g : Int) :
    lookupBucket (b :: bs) g = if b.1 = g then b.2 else lookupBucket bs g := by
  by_cases h : b.1 = g
  · simp [lookupBucket, List.find?_cons_of_pos, h]
  · simp only [lookupBucket, h, if_false]
    rw [List.find?_cons_of_neg]
    simp [h]

theorem lookupBucket_removeKB (f : Int) (k : K) :
    ∀ (bs : List (Int × List K)) (g : Int),
      lookupBucket (removeKB f k bs) g
        = if g = f then (lookupBucket bs g).erase k else lookupBucket bs g := by
  intro bs
  induction bs with
  | nil =>
    intro g
    simp only [removeKB, lookupBucket_nil]
    split <;> rfl
  | cons b bs ih =>
    intro g
    by_cases hbf : b.1 = f
    · simp only [removeKB, if_pos hbf, lookupBucket_cons]
      split_ifs <;> first | rfl | omega
    · simp only [removeKB, if_neg hbf, lookupBucket_cons, ih g]
      split_ifs <;> first | rfl | omega

theorem lookupBucket_addKB (f : Int) (k : K) :
    ∀ (bs : List (Int × List K)) (g : Int),
      lookupBucket (addKB f k bs) g
        = if g = f then lookupBucket bs g ++ [k] else lookupBucket bs g := by
  intro bs
  induction bs with
  | nil =>
    intro g
    simp only [addKB, lookupBucket_nil, lookupBucket_cons]
    split_ifs <;> first | rfl | omega
  | cons b bs ih =>
    intro g
    by_cases hbf : b.1 = f
    · simp only [addKB, if_pos hbf, lookupBucket_cons]
      split_ifs <;> first | rfl | omega
    · simp only [addKB, if_neg hbf, lookupBucket_cons, ih g]
      split_ifs <;> first | rfl | omega

theorem removeKB_map_fst (f : Int) (k : K) :
    ∀ bs : List (Int × List K), (removeKB f k bs).map Prod.fst = bs.map Prod.fst := by
  intro bs
  induction bs with
  | nil => rfl
  | cons b bs ih =>
    by_cases hbf : b.1 = f <;> simp [removeKB, hbf, ih]

theorem addKB_map_fst (f : Int) (k : K) :
    ∀ bs : List (Int × List K),
      (addKB f k bs).map Prod.fst
        = if f ∈ bs.map Prod.fst then bs.map Prod.fst else bs.map Prod.fst ++ [f] := by
  intro bs
  induction bs with
  | nil => simp [addKB]
  | cons b bs ih =>
    by_cases hbf : b.1 = f
    · simp only [addKB, if_pos hbf, List.map_cons]
      rw [if_pos]
      rw [← hbf]
      exact List.mem_cons_self _ _
    · simp only [addKB, if_neg hbf, List.map_cons, ih]
      by_cases hmem : f ∈ bs.map Prod.fst
      · rw [if_pos hmem, if_pos (List.mem_cons_of_mem _ hmem)]
      · rw [if_neg hmem, if_neg ?hnot]
        · simp
        case hnot =>
          intro hc
          rcases List.mem_cons.mp hc with h | h
          · exact hbf h.symm
          · exact hmem h

theorem lookupBucket_nodup {bs : List (Int × List K)}
    (h : ∀ b ∈ bs, b.2.Nodup) (g : Int) : (lookupBucket bs g).Nodup := by
  unfold lookupBucket
  cases hf : bs.find? (fun b => b.1 = g) with
  | none => exact List.nodup_nil
  | some b => exact h b (List.mem_of_find?_eq_some hf)

theorem lookupBucket_of_mem {bs : List (Int × List K)}
    (hnd : (bs.map Prod.fst).Nodup) {b : Int × List K} (hb : b ∈ bs) :
    lookupBucket bs b.1 = b.2 := by
  induction bs with
  | nil => simp at hb
  | cons x bs ih =>
    rcases List.mem_cons.mp hb with rfl | hb'
    · simp [lookupBucket_cons]
    · rw [lookupBucket_cons]
      have hx : ¬ x.1 = b.1 := by
        intro h
        have hmem : b.1 ∈ bs.map Prod.fst := List.mem_map_of_mem Prod.fst hb'
        rw [← h] at hmem
        exact (List.nodup_cons.mp (by simpa using hnd)).1 hmem
      rw [if_neg hx]
      exact ih (List.nodup_cons.mp (by simpa using hnd)).2 hb'
/-! ### Node-map lemmas -/

theorem lfuFind_eq_some {s : LFUState K V} {k : K} {n : LFUNode K V}
    (h : lfuFind s k = some n) : n ∈ s.nodeMap ∧ n.key = k := by
  refine ⟨List.mem_of_find?_eq_some h, ?_⟩
  have := List.find?_some h
  simpa using this

theorem lfuFind_eq_none {s : LFUState K V} {k : K} :
    lfuFind s k = none ↔ k ∉ s.nodeMap.map LFUNode.key := by
  unfold lfuFind
  rw [List.find?_eq_none]
  constructor
  · intro h hk
    obtain ⟨n, hn, hkey⟩ := List.mem_map.mp hk
    exact h n hn (by simpa using hkey)
  · intro h n hn hkey
    exact h (List.mem_map.mpr ⟨n, hn, by simpa using hkey⟩)

theorem setNode_map_key (n' : LFUNode K V) :
    ∀ nm : List (LFUNode K V),
      n'.key ∈ nm.map LFUNode.key →
      (setNode n' nm).map LFUNode.key = nm.map LFUNode.key := by
  intro nm
  induction nm with
  | nil => intro h; rfl
  | cons m nm ih =>
    intro h
    by_cases hm : m.key = n'.key
    · simp [setNode, hm]
    · simp only [setNode, hm, if_false, List.map_cons]
      rw [ih]
      · simp at h
        rcases h with h | h
        · exact absurd h.symm hm
        · simpa using h

theorem mem_setNode (n' : LFUNode K V) :
    ∀ (nm : List (LFUNode K V)) (m : LFUNode K V),
      m ∈ setNode n' nm → m = n' ∨ m ∈ nm := by
  intro nm
  induction nm with
  | nil => intro m h; simp [setNode] at h
  | cons x nm ih =>
    intro m h
    by_cases hx : x.key = n'.key
    · simp only [setNode, hx, if_true] at h
      rcases List.mem_cons.mp h with h | h
      · exact Or.inl h
      · exact Or.inr (List.mem_cons_of_mem _ h)
    · simp only [setNode, hx, if_false] at h
      rcases List.mem_cons.mp h with h | h
      · exact Or.inr (h ▸ List.mem_cons_self _ _)
      · rcases ih m h with h | h
        · exact Or.inl h
        · exact Or.inr (List.mem_cons_of_mem _ h)

theorem mem_setNode_of_ne (n' : LFUNode K V) :
    ∀ (nm : List (LFUNode K V)) (m : LFUNode K V),
      m ∈ nm → m.key ≠ n'.key → m ∈ setNode n' nm := by
  intro nm
  induction nm with
  | nil => intro m h; simp at h
  | cons x nm ih =>
    intro m hm hne
    by_cases hx : x.key = n'.key
    · simp only [setNode, hx, if_true]
      rcases List.mem_cons.mp hm with rfl | h
      · exact absurd hx hne
      · exact List.mem_cons_of_mem _ h
    · simp only [setNode, hx, if_false]
      rcases List.mem_cons.mp hm with rfl | h
      · exact List.mem_cons_self _ _
      · exact List.mem_cons_of_mem _ (ih m h hne)

theorem self_mem_setNode (n' : LFUNode K V) :
    ∀ nm : List (LFUNode K V),
      n'.key ∈ nm.map LFUNode.key → n' ∈ setNode n' nm := by
  intro nm
  induction nm with
  | nil => intro h; simp at h
  | cons x nm ih =>
    intro h
    by_cases hx : x.key = n'.key
    · simp [setNode, hx]
    · simp only [setNode, hx, if_false]
      refine List.mem_cons_of_mem _ (ih ?_)
      simp only [List.map_cons, List.mem_cons] at h
      rcases h with h | h
      · exact absurd h.symm hx
      · exact h

theorem eraseNodeKey_map_key (k : K) :
    ∀ nm : List (LFUNode K V),
      (eraseNodeKey k nm).map LFUNode.key = (nm.map LFUNode.key).erase k := by
  intro nm
  induction nm with
  | nil => rfl
  | cons m nm ih =>
    by_cases hm : m.key = k
    · simp [eraseNodeKey, hm, List.erase_cons_head]
    · simp only [eraseNodeKey, hm, if_false, List.map_cons]
      rw [List.erase_cons_tail, ih]
      simp [hm]

theorem mem_eraseNodeKey (k : K) :
    ∀ (nm : List (LFUNode K V)) (m : LFUNode K V),
      m ∈ eraseNodeKey k nm → m ∈ nm := by
  intro nm
  induction nm with
  | nil => intro m h; simp [eraseNodeKey] at h
  | cons x nm ih =>
    intro m h
    by_cases hx : x.key = k
    · simp only [eraseNodeKey, hx, if_true] at h
      exact List.mem_cons_of_mem _ h
    · simp only [eraseNodeKey, hx, if_false] at h
      rcases List.mem_cons.mp h with rfl | h
      · exact List.mem_cons_self _ _
      · exact List.mem_cons_of_mem _ (ih m h)

theorem mem_eraseNodeKey_of_ne (k : K) :
    ∀ (nm : List (LFUNode K V)) (m : LFUNode K V),
      m ∈ nm → m.key ≠ k → m ∈ eraseNodeKey k nm := by
  intro nm
  induction nm with
  | nil => intro m h; simp at h
  | cons x nm ih =>
    intro m hm hne
    by_cases hx : x.key = k
    · simp only [eraseNodeKey, hx, if_true]
      rcases List.mem_cons.mp hm with rfl | h
      · exact absurd hx hne
      · exact h
    · simp only [eraseNodeKey, hx, if_false]
      rcases List.mem_cons.mp hm with rfl | h
      · exact List.mem_cons_self _ _
      · exact List.mem_cons_of_mem _ (ih m h hne)

theorem not_mem_eraseNodeKey_self (k : K) :
    ∀ nm : List (LFUNode K V), (nm.map LFUNode.key).Nodup →
      ∀ m ∈ eraseNodeKey k nm, m.key ≠ k := by
  intro nm
  induction nm with
  | nil => intro _ m h; simp [eraseNodeKey] at h
  | cons x nm ih =>
    intro hnd m hm
    have hnd' : (nm.map LFUNode.key).Nodup :=
      (List.nodup_cons.mp (by simpa using hnd)).2
    have hxnot : x.key ∉ nm.map LFUNode.key :=
      (List.nodup_cons.mp (by simpa using hnd)).1
    by_cases hx : x.key = k
    · simp only [eraseNodeKey, hx, if_true] at hm
      intro hmk
      apply hxnot
      have hmem : m.key ∈ List.map LFUNode.key nm := List.mem_map_of_mem LFUNode.key hm
      rw [hmk, ← hx] at hmem
      exact hmem
    · simp only [eraseNodeKey, hx, if_false] at hm
      rcases List.mem_cons.mp hm with rfl | h
      · exact hx
      · exact ih hnd' m h

/-- A non-empty node list has a node of minimal frequency. -/
theorem exists_min_freq :
    ∀ nm : List (LFUNode K V), nm ≠ [] →
      ∃ n ∈ nm, ∀ m ∈ nm, n.freq ≤ m.freq := by
  intro nm
  induction nm with
  | nil => intro h; exact absurd rfl h
  | cons x nm ih =>
    intro _
    rcases nm with _ | ⟨y, nm'⟩
    · exact ⟨x, List.mem_cons_self _ _, by
        intro m hm
        rcases List.mem_cons.mp hm with rfl | h
        · exact le_refl _
        · simp at h⟩
    · obtain ⟨n, hn, hmin⟩ := ih (by simp)
      by_cases hx : x.freq ≤ n.freq
      · refine ⟨x, List.mem_cons_self _ _, ?_⟩
        intro m hm
        rcases List.mem_cons.mp hm with rfl | h
        · exact le_refl _
        · exact le_trans hx (hmin m h)
      · refine ⟨n, List.mem_cons_of_mem _ hn, ?_⟩
        intro m hm
        rcases List.mem_cons.mp hm with rfl | h
        · exact le_of_not_le hx
        · exact hmin m h

/-! ### `updateMinFreq` characterisation -/

theorem umf_fold_spec :
    ∀ (bs : List (Int × List K)) (a : Int),
      (bs.foldl updateMinFreqStep a ≤ a) ∧
      (∀ b ∈ bs, b.2 ≠ [] → bs.foldl updateMinFreqStep a ≤ b.1) ∧
      (bs.foldl updateMinFreqStep a = a ∨
        ∃ b ∈ bs, b.2 ≠ [] ∧ bs.foldl updateMinFreqStep a = b.1) := by
  intro bs
  induction bs with
  | nil => intro a; exact ⟨le_refl _, by simp, Or.inl rfl⟩
  | cons x bs ih =>
    intro a
    by_cases hx : x.2.isEmpty
    · have hfold : (x :: bs).foldl updateMinFreqStep a = bs.foldl updateMinFreqStep a := by
        rw [List.foldl_cons, show updateMinFreqStep a x = a from by
          simp [updateMinFreqStep, hx]]
      obtain ⟨h1, h2, h3⟩ := ih a
      rw [hfold]
      refine ⟨h1, ?_, ?_⟩
      · intro b hb hbne
        rcases List.mem_cons.mp hb with rfl | hb'
        · exact absurd (List.isEmpty_iff.mp hx) hbne
        · exact h2 b hb' hbne
      · rcases h3 with h | ⟨b, hb, hbne, heq⟩
        · exact Or.inl h
        · exact Or.inr ⟨b, List.mem_cons_of_mem _ hb, hbne, heq⟩
    · have hfold : (x :: bs).foldl updateMinFreqStep a
          = bs.foldl updateMinFreqStep (min a x.1) := by
        rw [List.foldl_cons, show updateMinFreqStep a x = min a x.1 from by
          simp [updateMinFreqStep, hx]]
      obtain ⟨h1, h2, h3⟩ := ih (min a x.1)
      rw [hfold]
      have hxne : x.2 ≠ [] := by
        intro hc
        rw [hc] at hx
        simp at hx
      refine ⟨le_trans h1 (min_le_left _ _), ?_, ?_⟩
      · intro b hb hbne
        rcases List.mem_cons.mp hb with rfl | hb'
        · exact le_trans h1 (min_le_right _ _)
        · exact h2 b hb' hbne
      · rcases h3 with h | ⟨b, hb, hbne, heq⟩
        · rcases le_or_lt a x.1 with hax | hax
          · exact Or.inl (h.trans (min_eq_left hax))
          · exact Or.inr ⟨x, List.mem_cons_self _ _, hxne,
              h.trans (min_eq_right (le_of_lt hax))⟩
        · exact Or.inr ⟨b, List.mem_cons_of_mem _ hb, hbne, heq⟩
/-! ### `updateMinFreq` at the state level -/

theorem updateMinFreq_nodeMap (s : LFUState K V) :
    (updateMinFreq s).nodeMap = s.nodeMap := rfl

theorem updateMinFreq_buckets (s : LFUState K V) :
    (updateMinFreq s).buckets = s.buckets := rfl

theorem exists_bucket_of_lookup_ne_nil {bs : List (Int × List K)} {g : Int}
    (h : lookupBucket bs g ≠ []) : ∃ b ∈ bs, b.1 = g ∧ b.2 ≠ [] := by
  unfold lookupBucket at h
  cases hf : bs.find? (fun b => b.1 = g) with
  | none => rw [hf] at h; exact absurd rfl h
  | some b =>
    rw [hf] at h
    refine ⟨b, List.mem_of_find?_eq_some hf, ?_, h⟩
    have := List.find?_some hf
    simpa using this

theorem core_updateMinFreq {s : LFUState K V} (h : LFUWFCore s) :
    LFUWFCore (updateMinFreq s) :=
  ⟨h.mapNodup, h.freqNodup, h.bNodup, h.placed, h.sound, h.freqPos⟩

/-- Under a well-formed core, a non-empty bucket's frequency is the
frequency of one of the cached nodes. -/
theorem freq_of_nonempty_bucket {s : LFUState K V} (h : LFUWFCore s)
    {b : Int × List K} (hb : b ∈ s.buckets) (hne : b.2 ≠ []) :
    ∃ n ∈ s.nodeMap, n.freq = b.1 := by
  have hlook : lookupBucket s.buckets b.1 = b.2 := lookupBucket_of_mem h.freqNodup hb
  obtain ⟨k, hkmem⟩ := List.exists_mem_of_ne_nil b.2 hne
  have hk : k ∈ lookupBucket s.buckets b.1 := by rw [hlook]; exact hkmem
  obtain ⟨n, hn, hkey⟩ := h.sound b.1 k hk
  refine ⟨n, hn, ?_⟩
  have := (h.placed n hn b.1).mp (hkey ▸ hk)
  exact this.symm

theorem updateMinFreq_pos {s : LFUState K V} (h : LFUWFCore s) :
    1 ≤ (updateMinFreq s).minFreq := by
  obtain ⟨h1, h2, h3⟩ := umf_fold_spec s.buckets 127
  show 1 ≤ (if s.buckets.foldl updateMinFreqStep 127 = 127 then 1
    else s.buckets.foldl updateMinFreqStep 127)
  split_ifs with hm
  · exact le_refl 1
  · rcases h3 with hm' | ⟨b, hb, hbne, heq⟩
    · exact absurd hm' hm
    · obtain ⟨n, hn, hfreq⟩ := freq_of_nonempty_bucket h hb hbne
      rw [heq, ← hfreq]
      exact h.freqPos n hn

/-- Accuracy: if the minimal cached frequency is below 127,
`updateMinFreq` recomputes exactly it. -/
theorem updateMinFreq_acc {s : LFUState K V} (h : LFUWFCore s) :
    ∀ n ∈ s.nodeMap, n.freq < 127 → (∀ m ∈ s.nodeMap, n.freq ≤ m.freq) →
      (updateMinFreq s).minFreq = n.freq := by
  intro n hn hlt hmin
  obtain ⟨h1, h2, h3⟩ := umf_fold_spec s.buckets 127
  have hkmem : n.key ∈ lookupBucket s.buckets n.freq := (h.placed n hn n.freq).mpr rfl
  have hneb : lookupBucket s.buckets n.freq ≠ [] := by
    intro hc; rw [hc] at hkmem; simp at hkmem
  obtain ⟨b, hb, hbfreq, hbne⟩ := exists_bucket_of_lookup_ne_nil hneb
  have hle : s.buckets.foldl updateMinFreqStep 127 ≤ n.freq := by
    have := h2 b hb hbne
    rw [hbfreq] at this
    exact this
  have hge : n.freq ≤ s.buckets.foldl updateMinFreqStep 127 := by
    rcases h3 with hm' | ⟨b', hb', hbne', heq⟩
    · rw [hm']; omega
    · obtain ⟨n', hn', hfreq'⟩ := freq_of_nonempty_bucket h hb' hbne'
      rw [heq, ← hfreq']
      exact hmin n' hn'
  have heqm : s.buckets.foldl updateMinFreqStep 127 = n.freq := le_antisymm hle hge
  show (if s.buckets.foldl updateMinFreqStep 127 = 127 then 1
    else s.buckets.foldl updateMinFreqStep 127) = n.freq
  rw [if_neg (by omega), heqm]

/-- The fallback branch (claim C4): if every bucket is empty or has
frequency at least 127, the recompute yields `minFreq_ = 1`. -/
theorem updateMinFreq_fallback {s : LFUState K V}
    (h : ∀ b ∈ s.buckets, b.2 = [] ∨ 127 ≤ b.1) :
    (updateMinFreq s).minFreq = 1 := by
  obtain ⟨h1, h2, h3⟩ := umf_fold_spec s.buckets 127
  have hm : s.buckets.foldl updateMinFreqStep 127 = 127 := by
    rcases h3 with hm' | ⟨b, hb, hbne, heq⟩
    · exact hm'
    · rcases h b hb with hc | hc
      · exact absurd hc hbne
      · have := h2 b hb hbne
        omega
  show (if s.buckets.foldl updateMinFreqStep 127 = 127 then 1
    else s.buckets.foldl updateMinFreqStep 127) = 1
  rw [if_pos hm]

/-- The accurate branch (claim C4): if some non-empty bucket has
frequency below 127, the recompute yields the smallest frequency
carrying a non-empty bucket. -/
theorem updateMinFreq_smallest_nonempty {s : LFUState K V}
    {b0 : Int × List K} (hb0 : b0 ∈ s.buckets) (hne0 : b0.2 ≠ [])
    (hlt : b0.1 < 127)
    (hmin : ∀ b ∈ s.buckets, b.2 ≠ [] → b0.1 ≤ b.1) :
    (updateMinFreq s).minFreq = b0.1 := by
  obtain ⟨h1, h2, h3⟩ := umf_fold_spec s.buckets 127
  have hle : s.buckets.foldl updateMinFreqStep 127 ≤ b0.1 := h2 b0 hb0 hne0
  have hge : b0.1 ≤ s.buckets.foldl updateMinFreqStep 127 := by
    rcases h3 with hm' | ⟨b', hb', hbne', heq⟩
    · omega
    · rw [heq]; exact hmin b' hb' hbne'
  show (if s.buckets.foldl updateMinFreqStep 127 = 127 then 1
    else s.buckets.foldl updateMinFreqStep 127) = b0.1
  rw [if_neg (by omega)]
  omega

theorem lfuAgingInv_step (d : Int) (n0 : LFUNode K V)
    (todo done : List (LFUNode K V)) (bs : List (Int × List K))
    (h0t : ∀ m ∈ todo, m.key ≠ n0.key) (h0d : ∀ m ∈ done, m.key ≠ n0.key)
    (hinv : lfuAgingInv d (n0 :: todo) done bs) :
    lfuAgingInv d todo (done ++ [n0]) (ageRebucket d bs n0) := by
  obtain ⟨hI1, hI2, hI3, hI4⟩ := hinv
  have hK : ∀ g : Int, lookupBucket (ageRebucket d bs n0) g
      = if g = lfuClamp (n0.freq - d)
        then (if lfuClamp (n0.freq - d) = n0.freq
              then (lookupBucket bs (lfuClamp (n0.freq - d))).erase n0.key
              else lookupBucket bs (lfuClamp (n0.freq - d))) ++ [n0.key]
        else if g = n0.freq then (lookupBucket bs g).erase n0.key
              else lookupBucket bs g := by
    intro g
    show lookupBucket (addKB _ _ (removeKB _ _ bs)) g = _
    rw [lookupBucket_addKB]
    by_cases hg : g = lfuClamp (n0.freq - d)
    · rw [if_pos hg, if_pos hg, lookupBucket_removeKB, hg]
    · rw [if_neg hg, if_neg hg, lookupBucket_removeKB]
  set f0 := n0.freq with hf0
  set c0 := lfuClamp (n0.freq - d) with hc0
  set k0 := n0.key with hk0
  have hn0mem : ∀ g : Int, (k0 ∈ lookupBucket bs g ↔ g = f0) :=
    hI2 n0 (List.mem_cons_self _ _)
  refine ⟨?_, ?_, ?_, ?_⟩
  · -- buckets stay duplicate-free
    intro g
    rw [hK g]
    split_ifs with hg hcf hgf
    · rw [List.nodup_append]
      refine ⟨(hI1 _).erase _, List.nodup_singleton _, ?_⟩
      intro a ha hb
      rw [List.mem_singleton] at hb
      subst hb
      exact ((hI1 _).mem_erase_iff.mp ha).1 rfl
    · rw [List.nodup_append]
      refine ⟨hI1 _, List.nodup_singleton _, ?_⟩
      intro a ha hb
      rw [List.mem_singleton] at hb
      subst hb
      exact hcf ((hn0mem _).mp ha)
    · exact (hI1 _).erase _
    · exact hI1 _
  · -- todo nodes still sit exactly at their old frequency
    intro m hm g
    have hmne : m.key ≠ k0 := h0t m hm
    have hbase := fun g' => hI2 m (List.mem_cons_of_mem _ hm) g'
    rw [hK g]
    split_ifs with hg hcf hgf
    · simp only [List.mem_append, List.mem_singleton, hmne, or_false]
      rw [List.mem_erase_of_ne hmne, hg]
      exact hbase c0
    · simp only [List.mem_append, List.mem_singleton, hmne, or_false]
      rw [hg]
      exact hbase c0
    · rw [List.mem_erase_of_ne hmne]
      exact hbase g
    · exact hbase g
  · -- done nodes (now including n0) sit exactly at their new frequency
    intro m hm g
    rcases List.mem_append.mp hm with hm' | hm'
    · have hmne : m.key ≠ k0 := h0d m hm'
      have hbase := fun g' => hI3 m hm' g'
      rw [hK g]
      split_ifs with hg hcf hgf
      · simp only [List.mem_append, List.mem_singleton, hmne, or_false]
        rw [List.mem_erase_of_ne hmne, hg]
        exact hbase c0
      · simp only [List.mem_append, List.mem_singleton, hmne, or_false]
        rw [hg]
        exact hbase c0
      · rw [List.mem_erase_of_ne hmne]
        exact hbase g
      · exact hbase g
    · rw [List.mem_singleton] at hm'
      subst hm'
      rw [hK g]
      split_ifs with hg hcf hgf
      · simp [hg]
      · simp [hg]
      · constructor
        · intro hin
          exact absurd ((hI1 g).mem_erase_iff.mp hin).1 (by simp)
        · intro hval
          exact absurd hval hg
      · constructor
        · intro hin
          exact absurd ((hn0mem g).mp hin) hgf
        · intro hval
          exact absurd hval hg
  · -- buckets hold only todo/done keys
    intro g k hk
    rw [hK g] at hk
    split_ifs at hk with hg hcf hgf
    · rw [List.mem_append, List.mem_singleton] at hk
      rcases hk with hin | rfl
      · have hkbs : k ∈ lookupBucket bs c0 := List.mem_of_mem_erase hin
        rcases hI4 c0 k hkbs with ⟨n, hn, hkey⟩ | ⟨n, hn, hkey⟩
        · rcases List.mem_cons.mp hn with rfl | hn'
          · exact Or.inr ⟨n, List.mem_append.mpr (Or.inr (List.mem_singleton.mpr rfl)), hkey⟩
          · exact Or.inl ⟨n, hn', hkey⟩
        · exact Or.inr ⟨n, List.mem_append.mpr (Or.inl hn), hkey⟩
      · exact Or.inr ⟨n0, List.mem_append.mpr (Or.inr (List.mem_singleton.mpr rfl)), rfl⟩
    · rw [List.mem_append, List.mem_singleton] at hk
      rcases hk with hin | rfl
      · rcases hI4 c0 k hin with ⟨n, hn, hkey⟩ | ⟨n, hn, hkey⟩
        · rcases List.mem_cons.mp hn with rfl | hn'
          · exact Or.inr ⟨n, List.mem_append.mpr (Or.inr (List.mem_singleton.mpr rfl)), hkey⟩
          · exact Or.inl ⟨n, hn', hkey⟩
        · exact Or.inr ⟨n, List.mem_append.mpr (Or.inl hn), hkey⟩
      · exact Or.inr ⟨n0, List.mem_append.mpr (Or.inr (List.mem_singleton.mpr rfl)), rfl⟩
    · have hkbs : k ∈ lookupBucket bs g := List.mem_of_mem_erase hk
      rcases hI4 g k hkbs with ⟨n, hn, hkey⟩ | ⟨n, hn, hkey⟩
      · rcases List.mem_cons.mp hn with rfl | hn'
        · exact Or.inr ⟨n, List.mem_append.mpr (Or.inr (List.mem_singleton.mpr rfl)), hkey⟩
        · exact Or.inl ⟨n, hn', hkey⟩
      · exact Or.inr ⟨n, List.mem_append.mpr (Or.inl hn), hkey⟩
    · rcases hI4 g k hk with ⟨n, hn, hkey⟩ | ⟨n, hn, hkey⟩
      · rcases List.mem_cons.mp hn with rfl | hn'
        · exact Or.inr ⟨n, List.mem_append.mpr (Or.inr (List.mem_singleton.mpr rfl)), hkey⟩
        · exact Or.inl ⟨n, hn', hkey⟩
      · exact Or.inr ⟨n, List.mem_append.mpr (Or.inl hn), hkey⟩
theorem lfuAgingInv_fold (d : Int) :
    ∀ (todo done : List (LFUNode K V)) (bs : List (Int × List K)),
      (((done ++ todo).map LFUNode.key).Nodup) →
      lfuAgingInv d todo done bs →
      lfuAgingInv d [] (done ++ todo) (todo.foldl (ageRebucket d) bs) := by
  intro todo
  induction todo with
  | nil =>
    intro done bs _ hinv
    simpa using hinv
  | cons n0 todo ih =>
    intro done bs hnd hinv
    have hnd' : ((done ++ n0 :: todo).map LFUNode.key).Nodup := hnd
    have hmid : n0.key ∉ (done.map LFUNode.key) ∧ n0.key ∉ (todo.map LFUNode.key) := by
      rw [List.map_append, List.map_cons] at hnd'
      have h2 := List.nodup_middle.mp hnd'
      have h3 := (List.nodup_cons.mp h2).1
      rw [List.mem_append] at h3
      push_neg at h3
      exact h3
    have h0t : ∀ m ∈ todo, m.key ≠ n0.key := by
      intro m hm hc
      exact hmid.2 (hc ▸ List.mem_map_of_mem LFUNode.key hm)
    have h0d : ∀ m ∈ done, m.key ≠ n0.key := by
      intro m hm hc
      exact hmid.1 (hc ▸ List.mem_map_of_mem LFUNode.key hm)
    have hstep := lfuAgingInv_step d n0 todo done bs h0t h0d hinv
    have hnd2 : (((done ++ [n0]) ++ todo).map LFUNode.key).Nodup := by
      rw [List.append_assoc]
      exact hnd
    have := ih (done ++ [n0]) (ageRebucket d bs n0) hnd2 hstep
    rw [List.append_assoc] at this
    exact this

theorem foldl_ageRebucket_map_fst_nodup (d : Int) :
    ∀ (nm : List (LFUNode K V)) (bs : List (Int × List K)),
      (bs.map Prod.fst).Nodup →
      ((nm.foldl (ageRebucket d) bs).map Prod.fst).Nodup := by
  intro nm
  induction nm with
  | nil => intro bs h; exact h
  | cons n nm ih =>
    intro bs h
    refine ih _ ?_
    show ((addKB (lfuClamp (n.freq - d)) n.key (removeKB n.freq n.key bs)).map Prod.fst).Nodup
    rw [addKB_map_fst, removeKB_map_fst]
    split_ifs with hmem
    · exact h
    · rw [List.nodup_append]
      refine ⟨h, List.nodup_singleton _, ?_⟩
      intro a ha hb
      rw [List.mem_singleton] at hb
      subst hb
      exact hmem ha

theorem lfuClamp_pos (f : Int) : 1 ≤ lfuClamp f := by
  unfold lfuClamp
  split_ifs <;> omega

theorem map_key_age (d : Int) (nm : List (LFUNode K V)) :
    (nm.map (fun n => { n with freq := lfuClamp (n.freq - d) })).map LFUNode.key
      = nm.map LFUNode.key := by
  rw [List.map_map]
  rfl

/-- `handleOverMaxAverageNum` preserves the structural invariants and
`minFreq_ ≥ 1`, keeps `maxAverageNum_`, transforms `nodeMap_` by the
clamped decrement (or leaves it alone when empty), and leaves `minFreq_`
accurate below 127. -/
theorem core_handleOverMaxAverageNum {s : LFUState K V}
    (hc : LFUWFCore s) (hpos : 1 ≤ s.minFreq) :
    LFUWFCore (handleOverMaxAverageNum s) ∧
    1 ≤ (handleOverMaxAverageNum s).minFreq ∧
    (handleOverMaxAverageNum s).maxAverageNum = s.maxAverageNum ∧
    ((handleOverMaxAverageNum s).nodeMap = s.nodeMap ∨
      (handleOverMaxAverageNum s).nodeMap
        = s.nodeMap.map
            (fun n => { n with freq := lfuClamp (n.freq - s.maxAverageNum.tdiv 2) })) ∧
    (∀ n ∈ (handleOverMaxAverageNum s).nodeMap, n.freq < 127 →
      (∀ m ∈ (handleOverMaxAverageNum s).nodeMap, n.freq ≤ m.freq) →
      (handleOverMaxAverageNum s).minFreq = n.freq) := by
  by_cases hemp : s.nodeMap.isEmpty
  · rw [show handleOverMaxAverageNum s = s from by
      unfold handleOverMaxAverageNum; rw [if_pos hemp]]
    refine ⟨hc, hpos, rfl, Or.inl rfl, ?_⟩
    intro n hn
    rw [List.isEmpty_iff.mp hemp] at hn
    simp at hn
  · have hstep : handleOverMaxAverageNum s
        = updateMinFreq
          { s with
            nodeMap := s.nodeMap.map
              (fun n => { n with freq := lfuClamp (n.freq - s.maxAverageNum.tdiv 2) }),
            buckets := s.nodeMap.foldl (ageRebucket (s.maxAverageNum.tdiv 2)) s.buckets } := by
      unfold handleOverMaxAverageNum
      rw [if_neg hemp]
    rw [hstep]
    set d := s.maxAverageNum.tdiv 2 with hd
    set nm' := s.nodeMap.map (fun n => { n with freq := lfuClamp (n.freq - d) }) with hnm'
    set bs' := s.nodeMap.foldl (ageRebucket d) s.buckets with hbs'
    have hinv0 : lfuAgingInv d s.nodeMap [] s.buckets := by
      refine ⟨lookupBucket_nodup hc.bNodup, hc.placed, by simp, ?_⟩
      intro g k hk
      exact Or.inl (hc.sound g k hk)
    have hfold := lfuAgingInv_fold d s.nodeMap [] s.buckets (by simpa using hc.mapNodup) hinv0
    rw [List.nil_append] at hfold
    obtain ⟨hJ1, _, hJ3, hJ4⟩ := hfold
    have hcore : LFUWFCore { s with nodeMap := nm', buckets := bs' } := by
      refine ⟨?_, ?_, ?_, ?_, ?_, ?_⟩
      · show (nm'.map LFUNode.key).Nodup
        rw [hnm', map_key_age]
        exact hc.mapNodup
      · show (bs'.map Prod.fst).Nodup
        exact foldl_ageRebucket_map_fst_nodup d s.nodeMap s.buckets hc.freqNodup
      · show ∀ b ∈ bs', b.2.Nodup
        intro b hb
        have hfst : (bs'.map Prod.fst).Nodup :=
          foldl_ageRebucket_map_fst_nodup d s.nodeMap s.buckets hc.freqNodup
        rw [← lookupBucket_of_mem hfst hb]
        exact hJ1 b.1
      · show ∀ n ∈ nm', ∀ g : Int, (n.key ∈ lookupBucket bs' g ↔ g = n.freq)
        intro n' hn' g
        rw [hnm'] at hn'
        obtain ⟨n, hn, rfl⟩ := List.mem_map.mp hn'
        exact hJ3 n hn g
      · show ∀ g : Int, ∀ k ∈ lookupBucket bs' g, ∃ n ∈ nm', n.key = k
        intro g k hk
        rcases hJ4 g k hk with ⟨n, hn, hkey⟩ | ⟨n, hn, hkey⟩
        · simp at hn
        · exact ⟨{ n with freq := lfuClamp (n.freq - d) },
            List.mem_map.mpr ⟨n, hn, rfl⟩, hkey⟩
      · show ∀ n ∈ nm', 1 ≤ n.freq
        intro n' hn'
        rw [hnm'] at hn'
        obtain ⟨n, hn, rfl⟩ := List.mem_map.mp hn'
        exact lfuClamp_pos _
    refine ⟨core_updateMinFreq hcore, updateMinFreq_pos hcore, rfl, Or.inr rfl, ?_⟩
    intro n hn hlt hmin
    exact updateMinFreq_acc hcore n hn hlt hmin

/-- `handleOverMaxAverageNum` preserves full well-formedness. -/
theorem wf_handleOverMaxAverageNum {s : LFUState K V} (h : LFUWF s) :
    LFUWF (handleOverMaxAverageNum s) := by
  obtain ⟨hc, hmax, hpos, hacc⟩ := h
  by_cases hemp : s.nodeMap.isEmpty
  · rw [show handleOverMaxAverageNum s = s from by
      unfold handleOverMaxAverageNum; rw [if_pos hemp]]
    exact ⟨hc, hmax, hpos, hacc⟩
  · obtain ⟨h1, h2, h3, _, h5⟩ := core_handleOverMaxAverageNum hc hpos
    exact ⟨h1, h3 ▸ hmax, h2, h5⟩

/-- `addFreqNum` preserves the structural invariants; the accuracy of
`minFreq_` transfers from the input (and is re-established outright when
an age-down runs). -/
theorem addFreqNum_props {s : LFUState K V}
    (hc : LFUWFCore s) (hpos : 1 ≤ s.minFreq) :
    LFUWFCore (addFreqNum s) ∧
    1 ≤ (addFreqNum s).minFreq ∧
    (addFreqNum s).maxAverageNum = s.maxAverageNum ∧
    ((addFreqNum s).nodeMap = s.nodeMap ∨
      (addFreqNum s).nodeMap
        = s.nodeMap.map
            (fun n => { n with freq := lfuClamp (n.freq - s.maxAverageNum.tdiv 2) })) ∧
    ((∀ n ∈ s.nodeMap, n.freq < 127 → (∀ m ∈ s.nodeMap, n.freq ≤ m.freq) →
        s.minFreq = n.freq) →
      (∀ n ∈ (addFreqNum s).nodeMap, n.freq < 127 →
        (∀ m ∈ (addFreqNum s).nodeMap, n.freq ≤ m.freq) →
        (addFreqNum s).minFreq = n.freq)) := by
  have hc1 : LFUWFCore (recomputeAvg { s with curTotalNum := s.curTotalNum + 1 }) :=
    ⟨hc.mapNodup, hc.freqNodup, hc.bNodup, hc.placed, hc.sound, hc.freqPos⟩
  simp only [addFreqNum]
  split_ifs
  · obtain ⟨h1, h2, h3, h4, h5⟩ := core_handleOverMaxAverageNum hc1 hpos
    exact ⟨h1, h2, h3, h4, fun _ => h5⟩
  · exact ⟨hc1, hpos, rfl, Or.inl rfl, fun hacc => hacc⟩

/-- `addFreqNum` preserves full well-formedness. -/
theorem wf_addFreqNum {s : LFUState K V} (h : LFUWF s) : LFUWF (addFreqNum s) := by
  obtain ⟨hc, hmax, hpos, hacc⟩ := h
  obtain ⟨h1, h2, h3, _, h5⟩ := addFreqNum_props hc hpos
  exact ⟨h1, h3 ▸ hmax, h2, h5 hacc⟩
/-! ### Node lookup and value update -/

theorem key_unique {nm : List (LFUNode K V)} (hnd : (nm.map LFUNode.key).Nodup) :
    ∀ n ∈ nm, ∀ m ∈ nm, n.key = m.key → n = m := by
  induction nm with
  | nil => intro n hn; simp at hn
  | cons x nm ih =>
    intro n hn m hm heq
    have hx : x.key ∉ nm.map LFUNode.key :=
      (List.nodup_cons.mp (by simpa using hnd)).1
    have hnd' : (nm.map LFUNode.key).Nodup :=
      (List.nodup_cons.mp (by simpa using hnd)).2
    rcases List.mem_cons.mp hn with rfl | hn' <;> rcases List.mem_cons.mp hm with rfl | hm'
    · rfl
    · exact absurd (heq ▸ List.mem_map_of_mem LFUNode.key hm') hx
    · exact absurd (heq ▸ List.mem_map_of_mem LFUNode.key hn') hx
    · exact ih hnd' n hn' m hm' heq

theorem lfuFind_of_mem {s : LFUState K V} (hnd : (s.nodeMap.map LFUNode.key).Nodup)
    {n : LFUNode K V} (hn : n ∈ s.nodeMap) {k : K} (hk : n.key = k) :
    lfuFind s k = some n := by
  unfold lfuFind
  cases hf : s.nodeMap.find? (fun m => m.key = k) with
  | none =>
    exfalso
    exact List.find?_eq_none.mp hf n hn (by simpa using hk)
  | some m =>
    have hm : m ∈ s.nodeMap := List.mem_of_find?_eq_some hf
    have hmk : m.key = k := by
      have := List.find?_some hf
      simpa using this
    rw [key_unique hnd n hn m hm (hk.trans hmk.symm)]

/-- Replacing a node by one with the same key and the same frequency
(a pure value overwrite) preserves the key list and the key/frequency
spectrum in both directions. -/
theorem setNode_value_corr {nm : List (LFUNode K V)}
    (hnd : (nm.map LFUNode.key).Nodup) {n n'' : LFUNode K V} (hn : n ∈ nm)
    (hkey : n''.key = n.key) (hfreq : n''.freq = n.freq) :
    ((setNode n'' nm).map LFUNode.key = nm.map LFUNode.key) ∧
    (∀ m ∈ setNode n'' nm, ∃ p ∈ nm, p.key = m.key ∧ p.freq = m.freq) ∧
    (∀ p ∈ nm, ∃ m ∈ setNode n'' nm, m.key = p.key ∧ m.freq = p.freq) := by
  have hinkeys : n''.key ∈ nm.map LFUNode.key := by
    rw [hkey]
    exact List.mem_map_of_mem LFUNode.key hn
  refine ⟨setNode_map_key n'' nm hinkeys, ?_, ?_⟩
  · intro m hm
    rcases mem_setNode n'' nm m hm with rfl | hm'
    · exact ⟨n, hn, (hkey).symm, (hfreq).symm⟩
    · exact ⟨m, hm', rfl, rfl⟩
  · intro p hp
    by_cases hpk : p.key = n''.key
    · have hpn : p = n := key_unique hnd p hp n hn (by rw [hpk, hkey])
      exact ⟨n'', self_mem_setNode n'' nm hinkeys, by rw [hkey, hpn], by rw [hfreq, hpn]⟩
    · exact ⟨p, mem_setNode_of_ne n'' nm p hp hpk, rfl, rfl⟩

/-- The full-state invariant transfers along a key- and
frequency-preserving rewrite of `nodeMap_` (buckets, `minFreq_`,
`maxAverageNum_` unchanged). -/
theorem wf_setValue {s : LFUState K V} (h : LFUWF s) {k : K} {n : LFUNode K V}
    (hfind : lfuFind s k = some n) (v : V) :
    LFUWF { s with nodeMap := setNode { n with value := v } s.nodeMap } := by
  obtain ⟨hc, hmax, hpos, hacc⟩ := h
  obtain ⟨hn, hnk⟩ := lfuFind_eq_some hfind
  obtain ⟨hkeys, hfwd, hbwd⟩ :=
    setNode_value_corr hc.mapNodup hn (rfl : ({ n with value := v } : LFUNode K V).key = n.key)
      (rfl : ({ n with value := v } : LFUNode K V).freq = n.freq)
  refine ⟨⟨?_, hc.freqNodup, hc.bNodup, ?_, ?_, ?_⟩, hmax, hpos, ?_⟩
  · show ((setNode { n with value := v } s.nodeMap).map LFUNode.key).Nodup
    rw [hkeys]
    exact hc.mapNodup
  · intro m hm g
    obtain ⟨p, hp, hpk, hpf⟩ := hfwd m hm
    rw [← hpk, ← hpf]
    exact hc.placed p hp g
  · intro g k' hk'
    obtain ⟨p, hp, hpkey⟩ := hc.sound g k' hk'
    obtain ⟨m, hm, hmk, _⟩ := hbwd p hp
    exact ⟨m, hm, hmk.trans hpkey⟩
  · intro m hm
    obtain ⟨p, hp, _, hpf⟩ := hfwd m hm
    rw [← hpf]
    exact hc.freqPos p hp
  · intro m hm hlt hmin
    obtain ⟨p, hp, hpk, hpf⟩ := hfwd m hm
    have hpmin : ∀ q ∈ s.nodeMap, p.freq ≤ q.freq := by
      intro q hq
      obtain ⟨m', hm', _, hm'f⟩ := hbwd q hq
      rw [← hm'f]
      rw [hpf]
      exact hmin m' hm'
    have := hacc p hp (by omega) hpmin
    rw [this, hpf]

/-! ### Bucket no-duplicate combinators -/

theorem bNodup_removeKB (f : Int) (k : K) :
    ∀ bs : List (Int × List K), (∀ b ∈ bs, b.2.Nodup) →
      ∀ b ∈ removeKB f k bs, b.2.Nodup := by
  intro bs
  induction bs with
  | nil => intro _ b hb; simp [removeKB] at hb
  | cons x bs ih =>
    intro h b hb
    by_cases hx : x.1 = f
    · simp only [removeKB, hx, if_true] at hb
      rcases List.mem_cons.mp hb with rfl | hb'
      · exact (h x (List.mem_cons_self _ _)).erase k
      · exact h b (List.mem_cons_of_mem _ hb')
    · simp only [removeKB, hx, if_false] at hb
      rcases List.mem_cons.mp hb with rfl | hb'
      · exact h b (List.mem_cons_self _ _)
      · exact ih (fun b' hb' => h b' (List.mem_cons_of_mem _ hb')) b hb'

theorem bNodup_addKB (f : Int) (k : K) :
    ∀ bs : List (Int × List K), (∀ b ∈ bs, b.2.Nodup) →
      k ∉ lookupBucket bs f →
      ∀ b ∈ addKB f k bs, b.2.Nodup := by
  intro bs
  induction bs with
  | nil =>
    intro _ _ b hb
    simp only [addKB] at hb
    rw [List.mem_singleton] at hb
    subst hb
    exact List.nodup_singleton _
  | cons x bs ih =>
    intro h hk b hb
    by_cases hx : x.1 = f
    · simp only [addKB, hx, if_true] at hb
      rcases List.mem_cons.mp hb with rfl | hb'
      · rw [List.nodup_append]
        refine ⟨h x (List.mem_cons_self _ _), List.nodup_singleton _, ?_⟩
        intro a ha hb2
        rw [List.mem_singleton] at hb2
        subst hb2
        apply hk
        rw [lookupBucket_cons, if_pos hx]
        exact ha
      · exact h b (List.mem_cons_of_mem _ hb')
    · simp only [addKB, hx, if_false] at hb
      rcases List.mem_cons.mp hb with rfl | hb'
      · exact h b (List.mem_cons_self _ _)
      · refine ih (fun b' hb' => h b' (List.mem_cons_of_mem _ hb')) ?_ b hb'
        intro hc
        apply hk
        rw [lookupBucket_cons, if_neg hx]
        exact hc
theorem mem_setNode_strong {nm : List (LFUNode K V)}
    (hnd : (nm.map LFUNode.key).Nodup) (n' : LFUNode K V) :
    ∀ m ∈ setNode n' nm, m = n' ∨ (m ∈ nm ∧ m.key ≠ n'.key) := by
  induction nm with
  | nil => intro m hm; simp [setNode] at hm
  | cons x nm ih =>
    intro m hm
    have hx : x.key ∉ nm.map LFUNode.key :=
      (List.nodup_cons.mp (by simpa using hnd)).1
    have hnd' : (nm.map LFUNode.key).Nodup :=
      (List.nodup_cons.mp (by simpa using hnd)).2
    by_cases hxk : x.key = n'.key
    · simp only [setNode, hxk, if_true] at hm
      rcases List.mem_cons.mp hm with rfl | hm'
      · exact Or.inl rfl
      · refine Or.inr ⟨List.mem_cons_of_mem _ hm', ?_⟩
        intro hc
        exact hx (by
          rw [← hxk] at hc
          exact hc ▸ List.mem_map_of_mem LFUNode.key hm')
    · simp only [setNode, hxk, if_false] at hm
      rcases List.mem_cons.mp hm with rfl | hm'
      · exact Or.inr ⟨List.mem_cons_self _ _, hxk⟩
      · rcases ih hnd' m hm' with h | ⟨h1, h2⟩
        · exact Or.inl h
        · exact Or.inr ⟨List.mem_cons_of_mem _ h1, h2⟩

/-- `lfuTouch` (the pre-aging part of `getInternal`) preserves full
well-formedness; in particular the conditional `minFreq_++` keeps
`minFreq_` accurate below 127. -/
theorem wf_lfuTouch {s : LFUState K V} (h : LFUWF s) (k : K) :
    LFUWF (lfuTouch s k) := by
  obtain ⟨hc, hmax, hpos, hacc⟩ := h
  cases hfind : lfuFind s k with
  | none =>
    rw [show lfuTouch s k = s from by unfold lfuTouch; rw [hfind]]
    exact ⟨hc, hmax, hpos, hacc⟩
  | some n =>
    obtain ⟨hn, hnk⟩ := lfuFind_eq_some hfind
    subst hnk
    set n' : LFUNode K V := { n with freq := n.freq + 1 } with hn'
    set s2 : LFUState K V :=
      { s with nodeMap := setNode n' s.nodeMap,
               buckets := addKB (n.freq + 1) n.key (removeKB n.freq n.key s.buckets) }
      with hs2
    have hstep : lfuTouch s n.key
        = if n.freq + 1 - 1 = s2.minFreq ∧ (bucketOf s2 (n.freq + 1 - 1)).isEmpty
          then { s2 with minFreq := s2.minFreq + 1 } else s2 := by
      simp only [lfuTouch, hfind]
    rw [hstep]
    have hidx : n.freq + 1 - 1 = n.freq := by omega
    have hF1 : ∀ g : Int, lookupBucket s2.buckets g
        = if g = n.freq + 1 then lookupBucket s.buckets g ++ [n.key]
          else if g = n.freq then (lookupBucket s.buckets g).erase n.key
          else lookupBucket s.buckets g := by
      intro g
      show lookupBucket (addKB (n.freq + 1) n.key (removeKB n.freq n.key s.buckets)) g = _
      rw [lookupBucket_addKB, lookupBucket_removeKB]
      split_ifs <;> first | rfl | omega
    have hkmem : ∀ g : Int, (n.key ∈ lookupBucket s.buckets g ↔ g = n.freq) :=
      hc.placed n hn
    have hnewmem : ∀ g : Int, (n.key ∈ lookupBucket s2.buckets g ↔ g = n.freq + 1) := by
      intro g
      rw [hF1 g]
      split_ifs with h1 h2
      · simp [h1]
      · constructor
        · intro hin
          exact absurd ((lookupBucket_nodup hc.bNodup g).mem_erase_iff.mp hin).1 (by simp)
        · intro hv
          exact absurd hv h1
      · constructor
        · intro hin
          exact absurd ((hkmem g).mp hin) h2
        · intro hv
          exact absurd hv h1
    have hothermem : ∀ (k' : K), k' ≠ n.key →
        ∀ g : Int, (k' ∈ lookupBucket s2.buckets g ↔ k' ∈ lookupBucket s.buckets g) := by
      intro k' hne g
      rw [hF1 g]
      split_ifs with h1 h2
      · simp [List.mem_append, List.mem_singleton, hne]
      · exact List.mem_erase_of_ne hne
      · exact Iff.rfl
    have hselfkeys : n'.key ∈ s.nodeMap.map LFUNode.key := by
      show n.key ∈ s.nodeMap.map LFUNode.key
      exact List.mem_map_of_mem LFUNode.key hn
    have hcore2 : LFUWFCore s2 := by
      refine ⟨?_, ?_, ?_, ?_, ?_, ?_⟩
      · show ((setNode n' s.nodeMap).map LFUNode.key).Nodup
        rw [setNode_map_key _ _ hselfkeys]
        exact hc.mapNodup
      · show ((addKB (n.freq + 1) n.key (removeKB n.freq n.key s.buckets)).map Prod.fst).Nodup
        rw [addKB_map_fst, removeKB_map_fst]
        split_ifs with hmem
        · exact hc.freqNodup
        · rw [List.nodup_append]
          refine ⟨hc.freqNodup, List.nodup_singleton _, ?_⟩
          intro a ha hb
          rw [List.mem_singleton] at hb
          subst hb
          exact hmem ha
      · show ∀ b ∈ addKB (n.freq + 1) n.key (removeKB n.freq n.key s.buckets), b.2.Nodup
        refine bNodup_addKB _ _ _ (bNodup_removeKB _ _ _ hc.bNodup) ?_
        rw [lookupBucket_removeKB, if_neg (by omega)]
        intro hcmem
        have := (hkmem _).mp hcmem
        omega
      · intro m hm g
        rcases mem_setNode_strong hc.mapNodup n' m hm with rfl | ⟨hm', hmk⟩
        · exact hnewmem g
        · rw [hothermem m.key hmk g]
          exact hc.placed m hm' g
      · intro g k' hk'
        by_cases hkn : k' = n.key
        · exact ⟨n', self_mem_setNode n' s.nodeMap hselfkeys, hkn.symm⟩
        · have hk's : k' ∈ lookupBucket s.buckets g := (hothermem k' hkn g).mp hk'
          obtain ⟨p, hp, hpk⟩ := hc.sound g k' hk's
          have hpkn : p.key ≠ n'.key := by
            show p.key ≠ n.key
            rw [hpk]
            exact hkn
          exact ⟨p, mem_setNode_of_ne n' s.nodeMap p hp hpkn, hpk⟩
      · intro m hm
        rcases mem_setNode_strong hc.mapNodup n' m hm with rfl | ⟨hm', _⟩
        · show 1 ≤ n.freq + 1
          have := hc.freqPos n hn
          omega
        · exact hc.freqPos m hm'
    have hself2 : n' ∈ setNode n' s.nodeMap := self_mem_setNode n' s.nodeMap hselfkeys
    have hmapne : s.nodeMap ≠ [] := by
      intro hc'
      rw [hc'] at hn
      simp at hn
    obtain ⟨m0, hm0, hm0min⟩ := exists_min_freq s.nodeMap hmapne
    by_cases hcond : n.freq + 1 - 1 = s2.minFreq ∧ (bucketOf s2 (n.freq + 1 - 1)).isEmpty
    · rw [if_pos hcond]
      obtain ⟨hc1, hc2⟩ := hcond
      have hs2min : s2.minFreq = s.minFreq := rfl
      have hminf : s.minFreq = n.freq := by omega
      rw [hidx] at hc2
      have hc2' : lookupBucket s2.buckets n.freq = [] := by
        rw [← List.isEmpty_iff]
        exact hc2
      have hempty : ∀ p ∈ s.nodeMap, p.key ≠ n.key → p.freq ≠ n.freq := by
        intro p hp hpk hpf
        have hpmem : p.key ∈ lookupBucket s2.buckets n.freq := by
          rw [hothermem p.key hpk n.freq]
          exact (hc.placed p hp n.freq).mpr hpf.symm
        rw [hc2'] at hpmem
        simp at hpmem
      refine ⟨⟨hcore2.mapNodup, hcore2.freqNodup, hcore2.bNodup, hcore2.placed,
        hcore2.sound, hcore2.freqPos⟩, hmax, by show 1 ≤ s2.minFreq + 1; omega, ?_⟩
      intro m' hm' hlt hmin
      show s2.minFreq + 1 = m'.freq
      have hupper : m'.freq ≤ n.freq + 1 := hmin n' hself2
      have hlower : n.freq + 1 ≤ m'.freq := by
        rcases mem_setNode_strong hc.mapNodup n' m' hm' with rfl | ⟨hm'', hmk⟩
        · exact le_refl _
        · by_cases h127 : m0.freq < 127
          · have hsm : s.minFreq = m0.freq := hacc m0 hm0 h127 hm0min
            have hge : m0.freq ≤ m'.freq := hm0min m' hm''
            have hne : m'.freq ≠ n.freq := hempty m' hm'' hmk
            omega
          · have := hm0min m' hm''
            omega
      omega
    · rw [if_neg hcond]
      refine ⟨hcore2, hmax, by show 1 ≤ s2.minFreq; exact hpos, ?_⟩
      intro m' hm' hlt hmin
      show s2.minFreq = m'.freq
      by_cases h127 : m0.freq < 127
      · have hsm : s.minFreq = m0.freq := hacc m0 hm0 h127 hm0min
        by_cases hex : ∃ m1 ∈ s.nodeMap, m1.key ≠ n.key ∧ m1.freq = m0.freq
        · obtain ⟨m1, hm1, hm1k, hm1f⟩ := hex
          have hm1ne : m1.key ≠ n'.key := hm1k
          have hm1mem : m1 ∈ setNode n' s.nodeMap :=
            mem_setNode_of_ne n' s.nodeMap m1 hm1 hm1ne
          have hupper : m'.freq ≤ m0.freq := by
            have := hmin m1 hm1mem
            omega
          have hlower : m0.freq ≤ m'.freq := by
            rcases mem_setNode_strong hc.mapNodup n' m' hm' with rfl | ⟨hm'', _⟩
            · have := hm0min n hn
              show m0.freq ≤ n.freq + 1
              omega
            · exact hm0min m' hm''
          have heq : m'.freq = m0.freq := by omega
          have hs2min2 : s2.minFreq = s.minFreq := rfl
          omega
        · push_neg at hex
          exfalso
          apply hcond
          have hm0k : m0.key = n.key := by
            by_contra hne
            exact hex m0 hm0 hne rfl
          have hm0n : m0 = n := key_unique hc.mapNodup m0 hm0 n hn hm0k
          have hnf : n.freq = m0.freq := by rw [hm0n]
          constructor
          · show n.freq + 1 - 1 = s2.minFreq
            have hs2min : s2.minFreq = s.minFreq := rfl
            omega
          · rw [hidx]
            show (bucketOf s2 n.freq).isEmpty
            rw [List.isEmpty_iff]
            show lookupBucket s2.buckets n.freq = []
            rw [hF1, if_neg (by omega), if_pos rfl, List.eq_nil_iff_forall_not_mem]
            intro k' hk'
            have hnodupb := lookupBucket_nodup hc.bNodup n.freq
            have hk'1 : k' ≠ n.key := (hnodupb.mem_erase_iff.mp hk').1
            have hk'2 : k' ∈ lookupBucket s.buckets n.freq :=
              (hnodupb.mem_erase_iff.mp hk').2
            obtain ⟨p, hp, hpk⟩ := hc.sound n.freq k' hk'2
            have hpf : n.freq = p.freq := by
              apply (hc.placed p hp n.freq).mp
              rw [hpk]
              exact hk'2
            apply hex p hp
            · rw [hpk]
              exact hk'1
            · omega
      · exfalso
        rcases mem_setNode_strong hc.mapNodup n' m' hm' with rfl | ⟨hm'', _⟩
        · have := hm0min n hn
          have : 127 ≤ n.freq := by omega
          have : (n' : LFUNode K V).freq = n.freq + 1 := rfl
          omega
        · have := hm0min m' hm''
          omega

theorem wf_lfuGetInternal {s : LFUState K V} (h : LFUWF s) (k : K) :
    LFUWF (lfuGetInternal s k) := by
  cases hfind : lfuFind s k with
  | none =>
    rw [show lfuGetInternal s k = s from by unfold lfuGetInternal; rw [hfind]]
    exact h
  | some n =>
    rw [show lfuGetInternal s k = addFreqNum (lfuTouch s k) from by
      unfold lfuGetInternal; rw [hfind]]
    exact wf_addFreqNum (wf_lfuTouch h k)
/-! ### `kickOut` and `putInternal` -/

/-- With a non-empty `minFreq_` bucket, `kickOut` evicts exactly the
bucket's oldest node; that node's frequency is `minFreq_`; the structural
invariants survive (the accuracy of `minFreq_` may not — the caller
`putInternal` restores it when it inserts the fresh frequency-1 node). -/
theorem kickOut_spec [Inhabited K] {s : LFUState K V}
    (hc : LFUWFCore s) (hpos : 1 ≤ s.minFreq)
    (hne : bucketOf s s.minFreq ≠ []) :
    ∃ nv ∈ s.nodeMap,
      (∃ rest, bucketOf s s.minFreq = nv.key :: rest) ∧
      nv.freq = s.minFreq ∧
      (kickOut s).nodeMap = eraseNodeKey nv.key s.nodeMap ∧
      (kickOut s).minFreq = s.minFreq ∧
      (kickOut s).maxAverageNum = s.maxAverageNum ∧
      (kickOut s).capacity = s.capacity ∧
      LFUWFCore (kickOut s) := by
  rcases hb : bucketOf s s.minFreq with _ | ⟨hk, rest⟩
  · exact absurd hb hne
  · have hkmem : hk ∈ lookupBucket s.buckets s.minFreq := by
      show hk ∈ bucketOf s s.minFreq
      rw [hb]
      exact List.mem_cons_self _ _
    obtain ⟨p, hp, hpk⟩ := hc.sound s.minFreq hk hkmem
    have hpf : p.freq = s.minFreq := by
      have := (hc.placed p hp s.minFreq).mp (hpk ▸ hkmem)
      omega
    have hfindp : lfuFind s hk = some p := lfuFind_of_mem hc.mapNodup hp hpk
    have hkout : kickOut s
        = decreaseFreqNum
            { s with buckets := removeKB p.freq hk s.buckets,
                     nodeMap := eraseNodeKey hk s.nodeMap } p.freq := by
      have hnf : nodeFreqOf s hk = p.freq := by
        unfold nodeFreqOf
        rw [hfindp]
      unfold kickOut
      rw [hb]
      show decreaseFreqNum
          { s with buckets := removeKB (nodeFreqOf s hk) hk s.buckets,
                   nodeMap := eraseNodeKey hk s.nodeMap } (nodeFreqOf s hk) = _
      rw [hnf]
    have hkeysnd : ((eraseNodeKey hk s.nodeMap).map LFUNode.key).Nodup := by
      rw [eraseNodeKey_map_key]
      exact hc.mapNodup.erase hk
    refine ⟨p, hp, ⟨rest, ?_⟩, hpf, ?_, ?_, ?_, ?_, ?_⟩
    · rw [hpk]
    · rw [hkout, hpk]
      rfl
    · rw [hkout]
      rfl
    · rw [hkout]
      rfl
    · rw [hkout]
      rfl
    · rw [hkout]
      refine ⟨hkeysnd, ?_, ?_, ?_, ?_, ?_⟩
      · show ((removeKB p.freq hk s.buckets).map Prod.fst).Nodup
        rw [removeKB_map_fst]
        exact hc.freqNodup
      · exact fun b hb' => bNodup_removeKB _ _ _ hc.bNodup b hb'
      · intro m hm g
        have hm' : m ∈ s.nodeMap := mem_eraseNodeKey hk s.nodeMap m hm
        have hmk : m.key ≠ hk := not_mem_eraseNodeKey_self hk s.nodeMap hc.mapNodup m hm
        show m.key ∈ lookupBucket (removeKB p.freq hk s.buckets) g ↔ g = m.freq
        rw [lookupBucket_removeKB]
        split_ifs with hg
        · rw [List.mem_erase_of_ne hmk]
          exact hc.placed m hm' g
        · exact hc.placed m hm' g
      · intro g k' hk'
        have hk2 : k' ∈ lookupBucket (removeKB p.freq hk s.buckets) g := hk'
        show ∃ n ∈ eraseNodeKey hk s.nodeMap, n.key = k'
        rw [lookupBucket_removeKB] at hk2
        have hk'bs : k' ∈ lookupBucket s.buckets g := by
          split_ifs at hk2 with hg
          · exact List.mem_of_mem_erase hk2
          · exact hk2
        have hk'ne : k' ≠ hk := by
          split_ifs at hk2 with hg
          · exact ((lookupBucket_nodup hc.bNodup g).mem_erase_iff.mp hk2).1
          · intro hc'
            subst hc'
            have := (hc.placed p hp g).mp (hpk ▸ hk'bs)
            omega
        obtain ⟨q, hq, hqk⟩ := hc.sound g k' hk'bs
        refine ⟨q, mem_eraseNodeKey_of_ne hk s.nodeMap q hq ?_, hqk⟩
        rw [hqk]
        exact hk'ne
      · intro m hm
        exact hc.freqPos m (mem_eraseNodeKey hk s.nodeMap m hm)

theorem tdiv_two_nonneg {a : Int} (h : 0 ≤ a) : 0 ≤ a.tdiv 2 :=
  Int.tdiv_nonneg h (by omega)

theorem lfuClamp_one_sub {d : Int} (hd : 0 ≤ d) : lfuClamp (1 - d) = 1 := by
  unfold lfuClamp
  split_ifs <;> omega

/-- `putInternal` on a fresh key preserves full well-formedness,
provided the `minFreq_` bucket is non-empty whenever the cache is full
(else `kickOut` walks into the empty bucket's sentinel). -/
theorem wf_putInternal [Inhabited K] {s : LFUState K V} (h : LFUWF s)
    (k : K) (v : V) (hfresh : lfuFind s k = none)
    (hsafe : s.nodeMap.length = sizeT s.capacity → bucketOf s s.minFreq ≠ []) :
    LFUWF (putInternal s k v) := by
  obtain ⟨hc, hmax, hpos, hacc⟩ := h
  have hknot : k ∉ s.nodeMap.map LFUNode.key := lfuFind_eq_none.mp hfresh
  -- the state after the optional eviction
  have hs1 : ∃ s1 : LFUState K V,
      (if s.nodeMap.length = sizeT s.capacity then kickOut s else s) = s1 ∧
      LFUWFCore s1 ∧ 1 ≤ s1.minFreq ∧ s1.maxAverageNum = s.maxAverageNum ∧
      k ∉ s1.nodeMap.map LFUNode.key := by
    split_ifs with hfull
    · obtain ⟨nv, hnv, _, _, hnm, hmf, hma, _, hcore⟩ :=
        kickOut_spec hc hpos (hsafe hfull)
      refine ⟨kickOut s, rfl, hcore, by rw [hmf]; exact hpos, hma, ?_⟩
      rw [hnm, eraseNodeKey_map_key]
      intro hcmem
      exact hknot (List.mem_of_mem_erase hcmem)
    · exact ⟨s, rfl, hc, hpos, rfl, hknot⟩
  obtain ⟨s1, hs1eq, hc1, hpos1, hmax1, hk1⟩ := hs1
  have hstep : putInternal s k v
      = { (addFreqNum
            { s1 with nodeMap := s1.nodeMap ++ [⟨k, v, 1⟩],
                      buckets := addKB 1 k s1.buckets }) with
          minFreq := min (addFreqNum
            { s1 with nodeMap := s1.nodeMap ++ [⟨k, v, 1⟩],
                      buckets := addKB 1 k s1.buckets }).minFreq 1 } := by
    unfold putInternal
    rw [hs1eq]
  rw [hstep]
  set s2 : LFUState K V :=
    { s1 with nodeMap := s1.nodeMap ++ [⟨k, v, 1⟩],
              buckets := addKB 1 k s1.buckets } with hs2
  have hksound : k ∉ lookupBucket s1.buckets 1 := by
    intro hcmem
    obtain ⟨q, hq, hqk⟩ := hc1.sound 1 k hcmem
    exact hk1 (hqk ▸ List.mem_map_of_mem LFUNode.key hq)
  have hF : ∀ g : Int, lookupBucket s2.buckets g
      = if g = 1 then lookupBucket s1.buckets g ++ [k] else lookupBucket s1.buckets g := by
    intro g
    show lookupBucket (addKB 1 k s1.buckets) g = _
    rw [lookupBucket_addKB]
  have hcore2 : LFUWFCore s2 := by
    refine ⟨?_, ?_, ?_, ?_, ?_, ?_⟩
    · show ((s1.nodeMap ++ [LFUNode.mk k v 1]).map LFUNode.key).Nodup
      rw [List.map_append]
      rw [List.nodup_append]
      refine ⟨hc1.mapNodup, by simp, ?_⟩
      intro a ha hb
      simp only [List.map_cons, List.map_nil, List.mem_singleton] at hb
      subst hb
      exact hk1 ha
    · show ((addKB 1 k s1.buckets).map Prod.fst).Nodup
      rw [addKB_map_fst]
      split_ifs with hmem
      · exact hc1.freqNodup
      · rw [List.nodup_append]
        refine ⟨hc1.freqNodup, List.nodup_singleton _, ?_⟩
        intro a ha hb
        rw [List.mem_singleton] at hb
        subst hb
        exact hmem ha
    · exact fun b hb => bNodup_addKB _ _ _ hc1.bNodup hksound b hb
    · intro m hm g
      rcases List.mem_append.mp hm with hm' | hm'
      · have hmk : m.key ≠ k := by
          intro hc'
          exact hk1 (hc' ▸ List.mem_map_of_mem LFUNode.key hm')
        rw [hF g]
        split_ifs with hg
        · rw [List.mem_append, List.mem_singleton]
          constructor
          · rintro (hin | hin)
            · exact (hc1.placed m hm' g).mp hin
            · exact absurd hin hmk
          · intro hval
            exact Or.inl ((hc1.placed m hm' g).mpr hval)
        · exact hc1.placed m hm' g
      · rw [List.mem_singleton] at hm'
        subst hm'
        show k ∈ lookupBucket s2.buckets g ↔ g = 1
        rw [hF g]
        split_ifs with hg
        · simp [hg]
        · constructor
          · intro hin
            obtain ⟨q, hq, hqk⟩ := hc1.sound g k hin
            exact absurd (hqk ▸ List.mem_map_of_mem LFUNode.key hq) hk1
          · intro hval
            exact absurd hval hg
    · intro g k' hk'
      rw [hF g] at hk'
      by_cases hkk : k' = k
      · subst hkk
        exact ⟨⟨k', v, 1⟩, List.mem_append.mpr (Or.inr (List.mem_singleton.mpr rfl)), rfl⟩
      · have hk'1 : k' ∈ lookupBucket s1.buckets g := by
          split_ifs at hk' with hg
          · rcases List.mem_append.mp hk' with hin | hin
            · exact hin
            · rw [List.mem_singleton] at hin
              exact absurd hin hkk
          · exact hk'
        obtain ⟨q, hq, hqk⟩ := hc1.sound g k' hk'1
        exact ⟨q, List.mem_append.mpr (Or.inl hq), hqk⟩
    · intro m hm
      rcases List.mem_append.mp hm with hm' | hm'
      · exact hc1.freqPos m hm'
      · rw [List.mem_singleton] at hm'
        subst hm'
        exact le_refl 1
  obtain ⟨h1, h2, h3, h4, _⟩ := addFreqNum_props hcore2 (by show 1 ≤ s1.minFreq; exact hpos1)
  have hmax2 : s2.maxAverageNum = s.maxAverageNum := hmax1
  have hnew : (⟨k, v, 1⟩ : LFUNode K V) ∈ (addFreqNum s2).nodeMap := by
    rcases h4 with h4 | h4
    · rw [h4]
      exact List.mem_append.mpr (Or.inr (List.mem_singleton.mpr rfl))
    · rw [h4]
      refine List.mem_map.mpr ⟨⟨k, v, 1⟩,
        List.mem_append.mpr (Or.inr (List.mem_singleton.mpr rfl)), ?_⟩
      have hd : 0 ≤ s2.maxAverageNum.tdiv 2 := tdiv_two_nonneg (hmax2 ▸ hmax)
      show LFUNode.mk k v (lfuClamp (1 - s2.maxAverageNum.tdiv 2)) = LFUNode.mk k v 1
      rw [lfuClamp_one_sub hd]
  refine ⟨⟨h1.mapNodup, h1.freqNodup, h1.bNodup, h1.placed, h1.sound, h1.freqPos⟩,
    ?_, ?_, ?_⟩
  · show 0 ≤ (addFreqNum s2).maxAverageNum
    rw [h3]
    show 0 ≤ s2.maxAverageNum
    rw [hmax2]
    exact hmax
  · show 1 ≤ min (addFreqNum s2).minFreq 1
    omega
  · intro m hm hlt hmin
    show min (addFreqNum s2).minFreq 1 = m.freq
    have hub : m.freq ≤ 1 := hmin ⟨k, v, 1⟩ hnew
    have hlb : 1 ≤ m.freq := h1.freqPos m hm
    omega

/-! ### Well-formedness of the public LFU operations -/

theorem addFreqNum_capacity (s : LFUState K V) :
    (addFreqNum s).capacity = s.capacity := by
  simp only [addFreqNum]
  split_ifs with h
  · simp only [handleOverMaxAverageNum]
    split_ifs with h2 <;> rfl
  · rfl

theorem lfuTouch_capacity (s : LFUState K V) (k : K) :
    (lfuTouch s k).capacity = s.capacity := by
  cases hfind : lfuFind s k with
  | none => simp only [lfuTouch, hfind]
  | some n =>
    simp only [lfuTouch, hfind]
    split_ifs <;> rfl

theorem kickOut_capacity [Inhabited K] (s : LFUState K V) :
    (kickOut s).capacity = s.capacity := by
  unfold kickOut
  cases hb : bucketOf s s.minFreq <;> rfl

theorem lfuTouch_nodeMap {s : LFUState K V} {k : K} {n : LFUNode K V}
    (hfind : lfuFind s k = some n) :
    (lfuTouch s k).nodeMap = setNode { n with freq := n.freq + 1 } s.nodeMap := by
  simp only [lfuTouch, hfind]
  split_ifs <;> rfl

/-- A touch bumps the touched key's stored frequency by exactly one. -/
theorem nodeFreqOf_lfuTouch {s : LFUState K V} {k : K} {n : LFUNode K V}
    (hnd : (s.nodeMap.map LFUNode.key).Nodup)
    (hfind : lfuFind s k = some n) :
    nodeFreqOf (lfuTouch s k) k = n.freq + 1 := by
  obtain ⟨hn, hnk⟩ := lfuFind_eq_some hfind
  have hkeys : ({ n with freq := n.freq + 1 } : LFUNode K V).key ∈ s.nodeMap.map LFUNode.key := by
    show n.key ∈ _
    exact List.mem_map_of_mem LFUNode.key hn
  have hfind' : lfuFind (lfuTouch s k) k = some { n with freq := n.freq + 1 } := by
    apply lfuFind_of_mem
    · show ((lfuTouch s k).nodeMap.map LFUNode.key).Nodup
      rw [lfuTouch_nodeMap hfind, setNode_map_key _ _ hkeys]
      exact hnd
    · rw [lfuTouch_nodeMap hfind]
      exact self_mem_setNode _ _ hkeys
    · exact hnk
  unfold nodeFreqOf
  rw [hfind']

theorem wf_lfuGet [Inhabited K] {s : LFUState K V} (h : LFUWF s) (k : K) :
    LFUWF (lfuGet s k).2 := by
  cases hfind : lfuFind s k with
  | none =>
    rw [show (lfuGet s k).2 = s from by unfold lfuGet; rw [hfind]]
    exact h
  | some n =>
    rw [show (lfuGet s k).2 = lfuGetInternal s k from by unfold lfuGet; rw [hfind]]
    exact wf_lfuGetInternal h k

theorem wf_lfuPut [Inhabited K] {s : LFUState K V} (h : LFUWF s) (k : K) (v : V)
    (hsafe : lfuSafeStep s (LFUOp.put k v) = true) :
    LFUWF (lfuPut s k v) := by
  by_cases hcap : s.capacity = 0
  · rw [show lfuPut s k v = s from by unfold lfuPut; rw [if_pos hcap]]
    exact h
  · cases hfind : lfuFind s k with
    | some n =>
      rw [show lfuPut s k v
          = lfuGetInternal { s with nodeMap := setNode { n with value := v } s.nodeMap } k
        from by unfold lfuPut; rw [if_neg hcap, hfind]]
      exact wf_lfuGetInternal (wf_setValue h hfind v) k
    | none =>
      rw [show lfuPut s k v = putInternal s k v from by
        unfold lfuPut; rw [if_neg hcap, hfind]]
      refine wf_putInternal h k v hfind ?_
      intro hfull hbe
      simp only [lfuSafeStep] at hsafe
      rw [hfind, hbe] at hsafe
      simp [hfull] at hsafe

theorem wf_lfuStep [Inhabited K] {s : LFUState K V} (h : LFUWF s) {op : LFUOp K V}
    (hsafe : lfuSafeStep s op = true) : LFUWF (lfuStep s op) := by
  cases op with
  | put k v => exact wf_lfuPut h k v hsafe
  | get k => exact wf_lfuGet h k

/-- A run of safe steps from a well-formed state ends well-formed. -/
theorem wf_lfuRun [Inhabited K] {ops : List (LFUOp K V)} :
    ∀ {s : LFUState K V}, LFUWF s → lfuSafeRun s ops = true → LFUWF (lfuRun s ops) := by
  induction ops with
  | nil =>
    intro s h _
    exact h
  | cons op ops ih =>
    intro s h hsafe
    unfold lfuSafeRun at hsafe
    rw [Bool.and_eq_true] at hsafe
    show LFUWF (lfuRun (lfuStep s op) ops)
    exact ih (wf_lfuStep h hsafe.1) hsafe.2

/-- A freshly constructed `LFUCache` with a non-negative aging threshold
is well-formed. -/
theorem wf_lfuInit (capacity maxAverageNum : Int) (hmax : 0 ≤ maxAverageNum) :
    LFUWF (lfuInit capacity maxAverageNum : LFUState K V) := by
  refine ⟨⟨?_, ?_, ?_, ?_, ?_, ?_⟩, hmax, ?_, ?_⟩
  · exact List.nodup_nil
  · exact List.nodup_nil
  · intro b hb
    simp [lfuInit] at hb
  · intro n hn
    simp [lfuInit] at hn
  · intro g k hk
    simp [lfuInit, lookupBucket] at hk
  · intro n hn
    simp [lfuInit] at hn
  · show (1 : Int) ≤ 127
    decide
  · intro n hn
    simp [lfuInit] at hn

/-! ### Keys and values through `addFreqNum` and `putInternal` -/

theorem handleOverMaxAverageNum_map_key (s : LFUState K V) :
    (handleOverMaxAverageNum s).nodeMap.map LFUNode.key
      = s.nodeMap.map LFUNode.key := by
  simp only [handleOverMaxAverageNum]
  split_ifs with h
  · rfl
  · exact map_key_age (s.maxAverageNum.tdiv 2) s.nodeMap

theorem addFreqNum_map_key (s : LFUState K V) :
    (addFreqNum s).nodeMap.map LFUNode.key = s.nodeMap.map LFUNode.key := by
  simp only [addFreqNum]
  split_ifs with h
  · exact handleOverMaxAverageNum_map_key _
  · rfl

/-- The key list after a full-cache `putInternal`: the `kickOut` victim's
map minus, plus the fresh key at the end. -/
theorem putInternal_keys_full [Inhabited K] {s : LFUState K V} (k : K) (v : V)
    (hfull : s.nodeMap.length = sizeT s.capacity) :
    (putInternal s k v).nodeMap.map LFUNode.key
      = (kickOut s).nodeMap.map LFUNode.key ++ [k] := by
  simp only [putInternal]
  rw [if_pos hfull]
  show (addFreqNum { kickOut s with
      nodeMap := (kickOut s).nodeMap ++ [(⟨k, v, 1⟩ : LFUNode K V)],
      buckets := addKB 1 k (kickOut s).buckets }).nodeMap.map LFUNode.key = _
  rw [addFreqNum_map_key, List.map_append]
  rfl

/-- Frequency aging never changes a key's stored value: looking a key up
after `addFreqNum` yields the same value as before. -/
theorem lfuFind_value_addFreqNum (s : LFUState K V) (k : K) :
    (lfuFind (addFreqNum s) k).map LFUNode.value
      = (lfuFind s k).map LFUNode.value := by
  simp only [addFreqNum]
  split_ifs with h
  · simp only [handleOverMaxAverageNum]
    split_ifs with h2
    · rfl
    · show ((s.nodeMap.map
          (fun n => { n with freq := lfuClamp (n.freq - s.maxAverageNum.tdiv 2) })).find?
            (fun n => n.key = k)).map LFUNode.value
        = (s.nodeMap.find? (fun n => n.key = k)).map LFUNode.value
      rw [List.find?_map]
      rw [Option.map_map]
      rfl
  · rfl

/-- `find?` after `setNode`: replacing the first node with `n.key` keeps
the first `k`-match at the same position whenever that first match was
the replaced node. -/
theorem find_setNode_self {κ : K} :
    ∀ (nm : List (LFUNode K V)) (n n' : LFUNode K V),
      nm.find? (fun m => m.key = κ) = some n → n'.key = n.key →
      (setNode n' nm).find? (fun m => m.key = κ) = some n' := by
  intro nm
  induction nm with
  | nil =>
    intro n n' h
    simp at h
  | cons x nm ih =>
    intro n n' hfind hkey
    by_cases hx : x.key = κ
    · have hxn : x = n := by
        rw [List.find?_cons_of_pos _ (by simpa using hx)] at hfind
        exact Option.some.inj hfind
      subst hxn
      rw [show setNode n' (x :: nm) = n' :: nm from by
        unfold setNode; rw [if_pos hkey.symm]]
      exact List.find?_cons_of_pos _ (by simpa using hkey.trans hx)
    · rw [List.find?_cons_of_neg _ (by simpa using hx)] at hfind
      have hn : n.key = κ := by simpa using List.find?_some hfind
      have hxk : ¬(x.key = n'.key) := by
        rw [hkey, hn]
        exact hx
      rw [show setNode n' (x :: nm) = x :: setNode n' nm from by
        simp only [setNode]; rw [if_neg hxk]]
      rw [List.find?_cons_of_neg _ (by simpa using hx)]
      exact ih n n' hfind hkey

/-- `find?` over an appended fresh node: when no earlier node carries the
key, the appended node is the first match. -/
theorem find_append_fresh {κ : K} :
    ∀ (nm : List (LFUNode K V)) (n : LFUNode K V),
      κ ∉ nm.map LFUNode.key → n.key = κ →
      (nm ++ [n]).find? (fun m => m.key = κ) = some n := by
  intro nm
  induction nm with
  | nil =>
    intro n _ hk
    show List.find? (fun m => m.key = κ) [n] = some n
    exact List.find?_cons_of_pos _ (by simpa using hk)
  | cons x nm ih =>
    intro n hmem hk
    have hx : ¬(x.key = κ) := by
      intro hc
      exact hmem (by
        rw [List.map_cons]
        exact List.mem_cons.mpr (Or.inl hc.symm))
    have hmem' : κ ∉ nm.map LFUNode.key := by
      intro hc
      exact hmem (by
        rw [List.map_cons]
        exact List.mem_cons.mpr (Or.inr hc))
    show List.find? (fun m => m.key = κ) (x :: (nm ++ [n])) = some n
    rw [List.find?_cons_of_neg _ (by simpa using hx)]
    exact ih n hmem' hk

/-- After a put with a non-zero capacity, the key is present and maps to
the value just written. -/
theorem lfuFind_value_lfuPut [Inhabited K] {s : LFUState K V}
    (hcap : s.capacity ≠ 0) (k : K) (v : V) :
    (lfuFind (lfuPut s k v) k).map LFUNode.value = some v := by
  cases hfind : lfuFind s k with
  | some n =>
    rw [show lfuPut s k v
        = lfuGetInternal { s with nodeMap := setNode { n with value := v } s.nodeMap } k
      from by unfold lfuPut; rw [if_neg hcap, hfind]]
    have hnk : n.key = k := (lfuFind_eq_some hfind).2
    have hfind1 : lfuFind { s with nodeMap := setNode { n with value := v } s.nodeMap } k
        = some { n with value := v } :=
      find_setNode_self s.nodeMap n { n with value := v } hfind rfl
    rw [show lfuGetInternal { s with nodeMap := setNode { n with value := v } s.nodeMap } k
        = addFreqNum (lfuTouch { s with nodeMap := setNode { n with value := v } s.nodeMap } k)
      from by unfold lfuGetInternal; rw [hfind1]]
    rw [lfuFind_value_addFreqNum]
    have htouch := lfuTouch_nodeMap hfind1
    have hfind2 : lfuFind (lfuTouch { s with nodeMap := setNode { n with value := v } s.nodeMap } k) k
        = some { { n with value := v } with freq := ({ n with value := v } : LFUNode K V).freq + 1 } := by
      show ((lfuTouch { s with nodeMap := setNode { n with value := v } s.nodeMap } k).nodeMap.find?
          (fun m => m.key = k)) = _
      rw [htouch]
      exact find_setNode_self _ _ _ hfind1 rfl
    rw [hfind2]
    rfl
  | none =>
    rw [show lfuPut s k v = putInternal s k v from by
      unfold lfuPut; rw [if_neg hcap, hfind]]
    have hknot : k ∉ s.nodeMap.map LFUNode.key := lfuFind_eq_none.mp hfind
    have hknot1 : ∀ κ' : K, k ∉ (eraseNodeKey κ' s.nodeMap).map LFUNode.key := by
      intro κ' hc
      rw [eraseNodeKey_map_key] at hc
      exact hknot (List.mem_of_mem_erase hc)
    have hknotKick : k ∉ (kickOut s).nodeMap.map LFUNode.key := by
      unfold kickOut
      cases hb : bucketOf s s.minFreq with
      | nil => exact hknot1 _
      | cons hk rest => exact hknot1 _
    simp only [putInternal]
    have hknotS1 : k ∉ ((if s.nodeMap.length = sizeT s.capacity then kickOut s else s)).nodeMap.map
        LFUNode.key := by
      split_ifs with hfull
      · exact hknotKick
      · exact hknot
    show (lfuFind (addFreqNum { (if s.nodeMap.length = sizeT s.capacity then kickOut s else s) with
        nodeMap := (if s.nodeMap.length = sizeT s.capacity then kickOut s else s).nodeMap
          ++ [(⟨k, v, 1⟩ : LFUNode K V)],
        buckets := addKB 1 k
          (if s.nodeMap.length = sizeT s.capacity then kickOut s else s).buckets }) k).map
        LFUNode.value = some v
    rw [lfuFind_value_addFreqNum]
    have hfind2 := find_append_fresh
      ((if s.nodeMap.length = sizeT s.capacity then kickOut s else s)).nodeMap
      (⟨k, v, 1⟩ : LFUNode K V) hknotS1 rfl
    show (((if s.nodeMap.length = sizeT s.capacity then kickOut s else s).nodeMap
        ++ [(⟨k, v, 1⟩ : LFUNode K V)]).find? (fun m => m.key = k)).map LFUNode.value = some v
    rw [hfind2]
    rfl

/-- The capacity field survives a put. -/
theorem lfuPut_capacity [Inhabited K] (s : LFUState K V) (k : K) (v : V) :
    (lfuPut s k v).capacity = s.capacity := by
  unfold lfuPut
  split_ifs with hcap
  · rfl
  · cases hfind : lfuFind s k with
    | some n =>
      show (lfuGetInternal { s with nodeMap := setNode { n with value := v } s.nodeMap } k).capacity = s.capacity
      unfold lfuGetInternal
      cases hfind2 : lfuFind { s with nodeMap := setNode { n with value := v } s.nodeMap } k with
      | none => rfl
      | some m =>
        show (addFreqNum (lfuTouch { s with nodeMap := setNode { n with value := v } s.nodeMap } k)).capacity = s.capacity
        rw [addFreqNum_capacity, lfuTouch_capacity]
    | none =>
      show (putInternal s k v).capacity = s.capacity
      simp only [putInternal]
      show (addFreqNum _).capacity = s.capacity
      rw [addFreqNum_capacity]
      show (if s.nodeMap.length = sizeT s.capacity then kickOut s else s).capacity = s.capacity
      split_ifs with hfull
      · exact kickOut_capacity s
      · rfl

/-! ### C3 and C4, amended -/

/-- **C3** (amended): on a well-formed LFU state, a hit bumps the hit
key's stored frequency by exactly 1 as its immediate effect (before the
trailing average-bookkeeping, which may age every frequency down), and a
put on a full cache evicts the oldest member of the `minFreq_` bucket,
whose frequency is minimal among all cached entries — provided some
minimal-frequency entry sits below `INT8_MAX` (127); otherwise
`updateMinFreq`'s fallback can desynchronise `minFreq_` and the victim
need not be minimal. -/
theorem lfu_hit_bump_and_min_freq_eviction [Inhabited K] {s : LFUState K V}
    (h : LFUWF s) :
    (∀ (k : K) (n : LFUNode K V), lfuFind s k = some n →
      nodeFreqOf (lfuTouch s k) k = n.freq + 1) ∧
    (∀ (k : K) (v : V), lfuFind s k = none →
      s.nodeMap.length = sizeT s.capacity →
      (∃ n0 ∈ s.nodeMap, n0.freq < 127 ∧ ∀ m ∈ s.nodeMap, n0.freq ≤ m.freq) →
      ∃ nv ∈ s.nodeMap,
        (∀ m ∈ s.nodeMap, nv.freq ≤ m.freq) ∧
        (∃ rest, bucketOf s nv.freq = nv.key :: rest) ∧
        (lfuPut s k v).nodeMap.map LFUNode.key
          = (eraseNodeKey nv.key s.nodeMap).map LFUNode.key ++ [k]) := by
  obtain ⟨hc, hmax, hpos, hacc⟩ := h
  constructor
  · intro k n hfind
    exact nodeFreqOf_lfuTouch hc.mapNodup hfind
  · intro k v hfind hfull hex
    obtain ⟨n0, hn0, hn0lt, hn0min⟩ := hex
    have haccn : s.minFreq = n0.freq := hacc n0 hn0 hn0lt hn0min
    have hcap : s.capacity ≠ 0 := by
      intro hc0
      rw [hc0] at hfull
      have h0 : sizeT (0 : Int) = 0 := rfl
      rw [h0] at hfull
      have hnil : s.nodeMap = [] := List.length_eq_zero.mp hfull
      rw [hnil] at hn0
      exact absurd hn0 (List.not_mem_nil n0)
    have hb : n0.key ∈ bucketOf s s.minFreq := (hc.placed n0 hn0 s.minFreq).mpr haccn
    have hbne : bucketOf s s.minFreq ≠ [] := List.ne_nil_of_mem hb
    obtain ⟨nv, hnv, ⟨rest, hrest⟩, hnvf, hnm, _, _, _, _⟩ :=
      kickOut_spec hc hpos hbne
    refine ⟨nv, hnv, ?_, ⟨rest, ?_⟩, ?_⟩
    · intro m hm
      rw [hnvf, haccn]
      exact hn0min m hm
    · rw [hnvf]
      exact hrest
    · rw [show lfuPut s k v = putInternal s k v from by
        unfold lfuPut; rw [if_neg hcap, hfind]]
      rw [putInternal_keys_full k v hfull, hnm]

/-- Witness for the amended C3 theorem at the concrete state
`LFUCache(2,10)` after `put(1,10); put(2,20)`. -/
theorem lfu_hit_bump_and_min_freq_eviction_witness :
    nodeFreqOf (lfuTouch lfuC3WitState 1) 1 = 1 + 1 ∧
    (∃ nv ∈ lfuC3WitState.nodeMap,
      (∀ m ∈ lfuC3WitState.nodeMap, nv.freq ≤ m.freq) ∧
      (∃ rest, bucketOf lfuC3WitState nv.freq = nv.key :: rest) ∧
      (lfuPut lfuC3WitState 3 30).nodeMap.map LFUNode.key
        = (eraseNodeKey nv.key lfuC3WitState.nodeMap).map LFUNode.key ++ [3]) := by
  have hwf : LFUWF lfuC3WitState :=
    wf_lfuRun (wf_lfuInit 2 10 (by decide)) (by rfl)
  have h := lfu_hit_bump_and_min_freq_eviction hwf
  exact ⟨h.1 1 ⟨1, 10, 1⟩ rfl, h.2 3 30 rfl rfl (by decide)⟩

/-- **C4** (amended): on a structurally well-formed state with at least
one entry, the age-down subtracts `maxAverageNum_ / 2` (truncating `int`
division) from every entry's frequency, clamped at 1, and re-buckets
every entry; afterwards every cached key has frequency ≥ 1 and sits
exactly in the bucket of its own frequency. The recomputed `minFreq_` is
the smallest non-empty bucket frequency only when that frequency is
below `INT8_MAX` (127); when every non-empty bucket has frequency ≥ 127
— in particular when all buckets are empty — the scan's accumulator
stays at 127 and the fallback sets `minFreq_ = 1` even though non-empty
buckets may exist. -/
theorem lfu_age_down_rebuckets_and_updates_min_freq {s : LFUState K V}
    (hc : LFUWFCore s) (hpos : 1 ≤ s.minFreq) (hne : s.nodeMap ≠ []) :
    (handleOverMaxAverageNum s).nodeMap
      = s.nodeMap.map
          (fun n => { n with freq := lfuClamp (n.freq - s.maxAverageNum.tdiv 2) }) ∧
    (∀ n ∈ (handleOverMaxAverageNum s).nodeMap,
      1 ≤ n.freq ∧
      ∀ g : Int,
        (n.key ∈ lookupBucket (handleOverMaxAverageNum s).buckets g ↔ g = n.freq)) ∧
    (∀ b0 ∈ (handleOverMaxAverageNum s).buckets, b0.2 ≠ [] → b0.1 < 127 →
      (∀ b ∈ (handleOverMaxAverageNum s).buckets, b.2 ≠ [] → b0.1 ≤ b.1) →
      (handleOverMaxAverageNum s).minFreq = b0.1) ∧
    ((∀ b ∈ (handleOverMaxAverageNum s).buckets, b.2 = [] ∨ 127 ≤ b.1) →
      (handleOverMaxAverageNum s).minFreq = 1) := by
  have hne2 : ¬(s.nodeMap.isEmpty = true) := fun hcon => hne (List.isEmpty_iff.mp hcon)
  have hT : handleOverMaxAverageNum s
      = updateMinFreq { s with
          nodeMap := s.nodeMap.map
            (fun n => { n with freq := lfuClamp (n.freq - s.maxAverageNum.tdiv 2) }),
          buckets := s.nodeMap.foldl (ageRebucket (s.maxAverageNum.tdiv 2)) s.buckets } := by
    simp only [handleOverMaxAverageNum]
    rw [if_neg hne2]
  have hcT : LFUWFCore (handleOverMaxAverageNum s) :=
    (core_handleOverMaxAverageNum hc hpos).1
  refine ⟨?_, ?_, ?_, ?_⟩
  · rw [hT]
    rfl
  · intro n hn
    exact ⟨hcT.freqPos n hn, hcT.placed n hn⟩
  · intro b0 hb0 hb0ne hb0lt hb0min
    rw [hT]
    rw [hT] at hb0 hb0min
    exact updateMinFreq_smallest_nonempty hb0 hb0ne hb0lt hb0min
  · intro hall
    rw [hT]
    rw [hT] at hall
    exact updateMinFreq_fallback hall

/-- Witness for the amended C4 theorem at the concrete state
`LFUCache(2,10)` after `put(1,10); put(2,20)`. -/
theorem lfu_age_down_rebuckets_and_updates_min_freq_witness :
    (handleOverMaxAverageNum lfuC3WitState).nodeMap
      = lfuC3WitState.nodeMap.map
          (fun n => { n with
            freq := lfuClamp (n.freq - lfuC3WitState.maxAverageNum.tdiv 2) }) ∧
    (∀ n ∈ (handleOverMaxAverageNum lfuC3WitState).nodeMap,
      1 ≤ n.freq ∧
      ∀ g : Int,
        (n.key ∈ lookupBucket (handleOverMaxAverageNum lfuC3WitState).buckets g
          ↔ g = n.freq)) ∧
    (∀ b0 ∈ (handleOverMaxAverageNum lfuC3WitState).buckets, b0.2 ≠ [] → b0.1 < 127 →
      (∀ b ∈ (handleOverMaxAverageNum lfuC3WitState).buckets, b.2 ≠ [] → b0.1 ≤ b.1) →
      (handleOverMaxAverageNum lfuC3WitState).minFreq = b0.1) ∧
    ((∀ b ∈ (handleOverMaxAverageNum lfuC3WitState).buckets, b.2 = [] ∨ 127 ≤ b.1) →
      (handleOverMaxAverageNum lfuC3WitState).minFreq = 1) := by
  have hwf : LFUWF lfuC3WitState :=
    wf_lfuRun (wf_lfuInit 2 10 (by decide)) (by rfl)
  exact lfu_age_down_rebuckets_and_updates_min_freq hwf.1 hwf.2.2.1
    (fun h => absurd (congrArg List.length h) (by decide))

/-! ### Put/get round trips for LRU and LFU -/

theorem nodup_append_singleton {l : List K} {k : K} (h1 : l.Nodup) (h2 : k ∉ l) :
    (l ++ [k]).Nodup := by
  rw [List.nodup_append]
  refine ⟨h1, List.nodup_singleton k, ?_⟩
  intro a ha hb
  rw [List.mem_singleton] at hb
  subst hb
  exact h2 ha

/-- `find?` over an appended fresh pair: when no earlier pair carries the
key, the appended pair is the first match. -/
theorem find_pair_append_fresh {k : K} :
    ∀ (l : List (K × V)) (p : K × V), k ∉ l.map Prod.fst → p.1 = k →
      (l ++ [p]).find? (fun q => q.1 = k) = some p := by
  intro l
  induction l with
  | nil =>
    intro p _ hk
    show List.find? (fun q => q.1 = k) [p] = some p
    exact List.find?_cons_of_pos _ (by simpa using hk)
  | cons x l ih =>
    intro p hmem hk
    have hx : ¬(x.1 = k) := by
      intro hc
      exact hmem (by
        rw [List.map_cons]
        exact List.mem_cons.mpr (Or.inl hc.symm))
    have hmem' : k ∉ l.map Prod.fst := by
      intro hc
      exact hmem (by
        rw [List.map_cons]
        exact List.mem_cons.mpr (Or.inr hc))
    show List.find? (fun q => q.1 = k) (x :: (l ++ [p])) = some p
    rw [List.find?_cons_of_neg _ (by simpa using hx)]
    exact ih p hmem' hk

theorem lruPut_capacity (s : LRUState K V) (k : K) (v : V) :
    (lruPut s k v).capacity = s.capacity := by
  by_cases h : s.capacity ≤ 0
  · rw [show lruPut s k v = s from by unfold lruPut; rw [if_pos h]]
  · cases hfind : lruFind s k with
    | some p =>
      rw [show lruPut s k v = lruMoveToMostRecent s k v from by
        unfold lruPut; rw [if_neg h, hfind]]
      rfl
    | none =>
      rw [show lruPut s k v = lruAddNewNode s k v from by
        unfold lruPut; rw [if_neg h, hfind]]
      simp only [lruAddNewNode]
      split_ifs <;> rfl

/-- A put keeps the stored keys distinct. -/
theorem lruPut_nodup {s : LRUState K V} (hnd : (s.list.map Prod.fst).Nodup)
    (k : K) (v : V) : ((lruPut s k v).list.map Prod.fst).Nodup := by
  by_cases h : s.capacity ≤ 0
  · rw [show lruPut s k v = s from by unfold lruPut; rw [if_pos h]]
    exact hnd
  · cases hfind : lruFind s k with
    | some p =>
      rw [show lruPut s k v = lruMoveToMostRecent s k v from by
        unfold lruPut; rw [if_neg h, hfind]]
      show ((eraseKey k s.list ++ [(k, v)]).map Prod.fst).Nodup
      rw [List.map_append, map_fst_eraseKey]
      show (((s.list.map Prod.fst).erase k) ++ [k]).Nodup
      refine nodup_append_singleton (hnd.erase k) ?_
      intro hc
      exact absurd (hnd.mem_erase_iff.mp hc).1 (by simp)
    | none =>
      have hknot : k ∉ s.list.map Prod.fst := by
        intro hc
        obtain ⟨p, hp, hpk⟩ := List.mem_map.mp hc
        have := List.find?_eq_none.mp hfind p hp
        simp [hpk] at this
      rw [show lruPut s k v = lruAddNewNode s k v from by
        unfold lruPut; rw [if_neg h, hfind]]
      simp only [lruAddNewNode]
      split_ifs with hfull
      · show ((s.list.tail ++ [(k, v)]).map Prod.fst).Nodup
        rw [List.map_append]
        show ((s.list.tail.map Prod.fst) ++ [k]).Nodup
        have hsub : List.Sublist (s.list.tail.map Prod.fst) (s.list.map Prod.fst) :=
          (List.tail_sublist s.list).map Prod.fst
        refine nodup_append_singleton (hnd.sublist hsub) ?_
        intro hc
        exact hknot (hsub.subset hc)
      · show ((s.list ++ [(k, v)]).map Prod.fst).Nodup
        rw [List.map_append]
        show ((s.list.map Prod.fst) ++ [k]).Nodup
        exact nodup_append_singleton hnd hknot

/-- Right after `lruPut`, the key is indexed with the value just put. -/
theorem lruFind_lruPut_self {s : LRUState K V} (hnd : (s.list.map Prod.fst).Nodup)
    (hcap : ¬(s.capacity ≤ 0)) (k : K) (v : V) :
    lruFind (lruPut s k v) k = some (k, v) := by
  cases hfind : lruFind s k with
  | some p =>
    rw [show lruPut s k v = lruMoveToMostRecent s k v from by
      unfold lruPut; rw [if_neg hcap, hfind]]
    show (eraseKey k s.list ++ [(k, v)]).find? (fun q => q.1 = k) = some (k, v)
    refine find_pair_append_fresh _ _ ?_ rfl
    rw [map_fst_eraseKey]
    intro hc
    exact absurd (hnd.mem_erase_iff.mp hc).1 (by simp)
  | none =>
    have hknot : k ∉ s.list.map Prod.fst := by
      intro hc
      obtain ⟨p, hp, hpk⟩ := List.mem_map.mp hc
      have := List.find?_eq_none.mp hfind p hp
      simp [hpk] at this
    rw [show lruPut s k v = lruAddNewNode s k v from by
      unfold lruPut; rw [if_neg hcap, hfind]]
    simp only [lruAddNewNode]
    split_ifs with hfull
    · show (s.list.tail ++ [(k, v)]).find? (fun q => q.1 = k) = some (k, v)
      refine find_pair_append_fresh _ _ ?_ rfl
      intro hc
      have hsub : List.Sublist (s.list.tail.map Prod.fst) (s.list.map Prod.fst) :=
        (List.tail_sublist s.list).map Prod.fst
      exact hknot (hsub.subset hc)
    · show (s.list ++ [(k, v)]).find? (fun q => q.1 = k) = some (k, v)
      exact find_pair_append_fresh _ _ hknot rfl

theorem lru_put_get_value {s : LRUState K V} (hnd : (s.list.map Prod.fst).Nodup)
    (hcap : 1 ≤ s.capacity) (k : K) (v : V) :
    (lruGet (lruPut s k v) k).1 = some v := by
  have hf := lruFind_lruPut_self hnd (by omega) k v
  unfold lruGet
  rw [hf]

theorem lfu_put_get_value [Inhabited K] {s : LFUState K V}
    (hcap : s.capacity ≠ 0) (k : K) (v : V) :
    (lfuGet (lfuPut s k v) k).1 = some v := by
  have h := lfuFind_value_lfuPut hcap k v
  cases hf : lfuFind (lfuPut s k v) k with
  | none =>
    rw [hf] at h
    exact absurd h (by simp)
  | some n =>
    rw [hf] at h
    unfold lfuGet
    rw [hf]
    exact h

/-! ### ARC capacity bookkeeping -/

theorem removeOldestGhost_capacity (s : ARCLRUState K V) :
    (removeOldestGhost s).capacity = s.capacity := by
  unfold removeOldestGhost
  cases hg : s.ghostList.getLast? <;> rfl

theorem arcLruEvict_capacity (s : ARCLRUState K V) :
    (arcLruEvictLeastRecent s).capacity = s.capacity := by
  cases hg : s.mainList.getLast? with
  | none => simp only [arcLruEvictLeastRecent, hg]
  | some lr =>
    simp only [arcLruEvictLeastRecent, hg]
    split_ifs with h
    · show (removeOldestGhost { s with mainList := s.mainList.dropLast }).capacity
        = s.capacity
      exact removeOldestGhost_capacity _
    · rfl

theorem arcLruUpdateExisting_capacity (s : ARCLRUState K V) (k : K) (v : V) :
    (arcLruUpdateExisting s k v).capacity = s.capacity := by
  unfold arcLruUpdateExisting
  cases hf : s.mainList.find? (fun n => n.key = k) <;> rfl

theorem arcLruAddNewNode_capacity (s : ARCLRUState K V) (k : K) (v : V) :
    (arcLruAddNewNode s k v).capacity = s.capacity := by
  simp only [arcLruAddNewNode]
  split_ifs with h
  · show (arcLruEvictLeastRecent s).capacity = s.capacity
    exact arcLruEvict_capacity s
  · rfl

theorem arcLruPut_capacity (s : ARCLRUState K V) (k : K) (v : V) :
    ((arcLruPut s k v).2).capacity = s.capacity := by
  unfold arcLruPut
  split_ifs with h1 h2
  · rfl
  · show (arcLruUpdateExisting s k v).capacity = s.capacity
    exact arcLruUpdateExisting_capacity s k v
  · show (arcLruAddNewNode s k v).capacity = s.capacity
    exact arcLruAddNewNode_capacity s k v

theorem arcLruGet_capacity (s : ARCLRUState K V) (k : K) :
    ((arcLruGet s k).2.2).capacity = s.capacity := by
  unfold arcLruGet
  split_ifs with h
  · cases hf : s.mainList.find? (fun n => n.key = k) <;> rfl
  · rfl

theorem arcLruCheckGhost_capacity (s : ARCLRUState K V) (k : K) :
    ((arcLruCheckGhost s k).2).capacity = s.capacity := by
  unfold arcLruCheckGhost
  split_ifs <;> rfl

theorem arcLruDecreaseCapacity_spec (s : ARCLRUState K V) :
    ((arcLruDecreaseCapacity s).2).capacity
      + (if (arcLruDecreaseCapacity s).1 then 1 else 0) = s.capacity := by
  by_cases h0 : s.capacity = 0
  · rw [show arcLruDecreaseCapacity s = (false, s) from by
      unfold arcLruDecreaseCapacity; rw [if_pos h0]]
    show s.capacity + 0 = s.capacity
    omega
  · by_cases hfull : s.mainKeys.length = s.capacity
    · rw [show arcLruDecreaseCapacity s
          = (true, { arcLruEvictLeastRecent s with
              capacity := (arcLruEvictLeastRecent s).capacity - 1 }) from by
        unfold arcLruDecreaseCapacity; rw [if_neg h0, if_pos hfull]]
      show (arcLruEvictLeastRecent s).capacity - 1 + 1 = s.capacity
      rw [arcLruEvict_capacity]
      omega
    · rw [show arcLruDecreaseCapacity s
          = (true, { s with capacity := s.capacity - 1 }) from by
        unfold arcLruDecreaseCapacity; rw [if_neg h0, if_neg hfull]]
      show s.capacity - 1 + 1 = s.capacity
      omega

theorem arcLfuEvict_capacity (s : ARCLFUState K V) :
    (arcLfuEvict s).capacity = s.capacity := by
  unfold arcLfuEvict
  split <;> rfl

theorem arcLfuPut_capacity (s : ARCLFUState K V) (k : K) (v : V) :
    (arcLfuPut s k v).capacity = s.capacity := by
  by_cases h0 : s.capacity = 0
  · rw [show arcLfuPut s k v = s from by unfold arcLfuPut; rw [if_pos h0]]
  · cases hf : s.entries.find? (fun e => e.1 = k) with
    | some e => simp only [arcLfuPut, hf, if_neg h0]
    | none =>
      simp only [arcLfuPut, hf, if_neg h0]
      split_ifs with hfull
      · show (arcLfuEvict s).capacity = s.capacity
        exact arcLfuEvict_capacity s
      · rfl

theorem arcLfuGet_capacity (s : ARCLFUState K V) (k : K) :
    ((arcLfuGet s k).2).capacity = s.capacity := by
  unfold arcLfuGet
  cases hf : s.entries.find? (fun e => e.1 = k) <;> rfl

theorem arcLfuCheckGhost_capacity (s : ARCLFUState K V) (k : K) :
    ((arcLfuCheckGhost s k).2).capacity = s.capacity := by
  unfold arcLfuCheckGhost
  split_ifs <;> rfl

theorem arcLfuDecreaseCapacity_spec (s : ARCLFUState K V) :
    ((arcLfuDecreaseCapacity s).2).capacity
      + (if (arcLfuDecreaseCapacity s).1 then 1 else 0) = s.capacity := by
  by_cases h0 : s.capacity = 0
  · rw [show arcLfuDecreaseCapacity s = (false, s) from by
      unfold arcLfuDecreaseCapacity; rw [if_pos h0]]
    show s.capacity + 0 = s.capacity
    omega
  · by_cases hfull : s.entries.length = s.capacity
    · rw [show arcLfuDecreaseCapacity s
          = (true, { arcLfuEvict s with
              capacity := (arcLfuEvict s).capacity - 1 }) from by
        unfold arcLfuDecreaseCapacity; rw [if_neg h0, if_pos hfull]]
      show (arcLfuEvict s).capacity - 1 + 1 = s.capacity
      rw [arcLfuEvict_capacity]
      omega
    · rw [show arcLfuDecreaseCapacity s
          = (true, { s with capacity := s.capacity - 1 }) from by
        unfold arcLfuDecreaseCapacity; rw [if_neg h0, if_neg hfull]]
      show s.capacity - 1 + 1 = s.capacity
      omega

/-- Every ghost-driven adaptation conserves the capacity sum: a rejected
decrease leaves both sides alone, a successful one is paired with the
opposite increase. -/
theorem checkGhostCaches_capacity_sum (s : ARCState K V) (k : K) :
    ((checkGhostCaches s k).2).lru.capacity + ((checkGhostCaches s k).2).lfu.capacity
      = s.lru.capacity + s.lfu.capacity := by
  have hcgL := arcLruCheckGhost_capacity s.lru k
  have hcgF := arcLfuCheckGhost_capacity s.lfu k
  have hdF := arcLfuDecreaseCapacity_spec s.lfu
  have hdL := arcLruDecreaseCapacity_spec ((arcLruCheckGhost s.lru k).2)
  simp only [checkGhostCaches]
  split_ifs with h1 h2 h3 h4
  · rw [if_pos h2] at hdF
    show (arcLruCheckGhost s.lru k).2.capacity + 1
        + ((arcLfuDecreaseCapacity s.lfu).2).capacity
      = s.lru.capacity + s.lfu.capacity
    omega
  · rw [if_neg h2] at hdF
    show (arcLruCheckGhost s.lru k).2.capacity
        + ((arcLfuDecreaseCapacity s.lfu).2).capacity
      = s.lru.capacity + s.lfu.capacity
    omega
  · rw [if_pos h4] at hdL
    show ((arcLruDecreaseCapacity (arcLruCheckGhost s.lru k).2).2).capacity
        + ((arcLfuCheckGhost s.lfu k).2.capacity + 1)
      = s.lru.capacity + s.lfu.capacity
    omega
  · rw [if_neg h4] at hdL
    show ((arcLruDecreaseCapacity (arcLruCheckGhost s.lru k).2).2).capacity
        + (arcLfuCheckGhost s.lfu k).2.capacity
      = s.lru.capacity + s.lfu.capacity
    omega
  · show (arcLruCheckGhost s.lru k).2.capacity + (arcLfuCheckGhost s.lfu k).2.capacity
      = s.lru.capacity + s.lfu.capacity
    omega

theorem arcPut_capacity_sum (s : ARCState K V) (k : K) (v : V) :
    (arcPut s k v).lru.capacity + (arcPut s k v).lfu.capacity
      = s.lru.capacity + s.lfu.capacity := by
  have hsum := checkGhostCaches_capacity_sum s k
  have hp := arcLruPut_capacity ((checkGhostCaches s k).2).lru k v
  have hq := arcLfuPut_capacity ((checkGhostCaches s k).2).lfu k v
  simp only [arcPut]
  split_ifs with h1 h2
  · show ((arcLruPut ((checkGhostCaches s k).2).lru k v).2).capacity
        + (arcLfuPut ((checkGhostCaches s k).2).lfu k v).capacity
      = s.lru.capacity + s.lfu.capacity
    omega
  · show ((arcLruPut ((checkGhostCaches s k).2).lru k v).2).capacity
        + ((checkGhostCaches s k).2).lfu.capacity
      = s.lru.capacity + s.lfu.capacity
    omega
  · show ((arcLruPut ((checkGhostCaches s k).2).lru k v).2).capacity
        + ((checkGhostCaches s k).2).lfu.capacity
      = s.lru.capacity + s.lfu.capacity
    omega

theorem arcGet_capacity_sum (s : ARCState K V) (k : K) :
    ((arcGet s k).2).lru.capacity + ((arcGet s k).2).lfu.capacity
      = s.lru.capacity + s.lfu.capacity := by
  have hsum := checkGhostCaches_capacity_sum s k
  have hg := arcLruGet_capacity ((checkGhostCaches s k).2).lru k
  have hf := arcLfuGet_capacity ((checkGhostCaches s k).2).lfu k
  simp only [arcGet]
  split
  · rename_i v heq
    have hq := arcLfuPut_capacity ((checkGhostCaches s k).2).lfu k v
    split_ifs with ht
    · show ((arcLruGet ((checkGhostCaches s k).2).lru k).2.2).capacity
          + (arcLfuPut ((checkGhostCaches s k).2).lfu k v).capacity
        = s.lru.capacity + s.lfu.capacity
      omega
    · show ((arcLruGet ((checkGhostCaches s k).2).lru k).2.2).capacity
          + ((checkGhostCaches s k).2).lfu.capacity
        = s.lru.capacity + s.lfu.capacity
      omega
  · show ((arcLruGet ((checkGhostCaches s k).2).lru k).2.2).capacity
        + ((arcLfuGet ((checkGhostCaches s k).2).lfu k).2).capacity
      = s.lru.capacity + s.lfu.capacity
    omega

theorem arcStep_capacity_sum (s : ARCState K V) (op : ARCOp K V) :
    (arcStep s op).lru.capacity + (arcStep s op).lfu.capacity
      = s.lru.capacity + s.lfu.capacity := by
  cases op with
  | put k v => exact arcPut_capacity_sum s k v
  | get k => exact arcGet_capacity_sum s k

/-! ### Claim theorems: C5, C6, C7, C9 -/

/-- Counterexample to C5: `ARCCache(4, 2)` hands the FULL total capacity
to each half, so right after construction the two capacities sum to 8,
not 4. -/
theorem arc_capacity_sum_counterexample :
    (arcInit 4 2 4 : ARCState Nat Nat).lru.capacity
      + (arcInit 4 2 4 : ARCState Nat Nat).lfu.capacity = 8 ∧
    ¬((arcInit 4 2 4 : ARCState Nat Nat).lru.capacity
      + (arcInit 4 2 4 : ARCState Nat Nat).lfu.capacity = 4) :=
  ⟨rfl, by decide⟩

/-- **C5** (amended): each half is constructed with the full total
capacity `C`, so the invariant conserved at every public-method boundary
is `cap(T1) + cap(T2) = 2·C`, not `C`: the sum starts at `2·C` and every
operation preserves it (each successful ghost-driven capacity decrease
of one half is paired with an increase of the other; a decrease is
rejected at capacity 0, in which case the other half does not grow). -/
theorem arc_capacity_sum_two_c_conserved :
    (∀ capacity transformThreshold ghostCapacity : Nat,
      (arcInit capacity transformThreshold ghostCapacity : ARCState K V).lru.capacity
        + (arcInit capacity transformThreshold ghostCapacity : ARCState K V).lfu.capacity
        = 2 * capacity) ∧
    (∀ (s : ARCState K V) (ops : List (ARCOp K V)),
      (arcRun s ops).lru.capacity + (arcRun s ops).lfu.capacity
        = s.lru.capacity + s.lfu.capacity) := by
  constructor
  · intro c tt g
    show c + c = 2 * c
    omega
  · intro s ops
    induction ops generalizing s with
    | nil => rfl
    | cons op ops ih =>
      show (arcRun (arcStep s op) ops).lru.capacity
          + (arcRun (arcStep s op) ops).lfu.capacity
        = s.lru.capacity + s.lfu.capacity
      rw [ih (arcStep s op)]
      exact arcStep_capacity_sum s op

/-- **C6**: `ARCLRUPart` with capacity 1 (ghost capacity 1, transform
threshold 2) after `put(10,100); get(10); put(20,200)`: the second put
evicts node 10, whose access count is indeed reset from 2 to 1 — but
`addToGhost` links it through `mainHead_`, so the node stays linked in
the MAIN list (`[20, 10]`), the ghost linked list remains empty, and only
the `ghostCache_` map records key 10. After a further `put(30,300)` the
"full" ghost map cannot be trimmed (`removeOldestGhost` sees the empty
ghost list and returns), the ghost node 10 is re-evicted instead of the
real LRU entry 20, and the main map outgrows the capacity. -/
theorem arc_evicted_node_stays_in_main_list :
    arcC6S2.mainList = [⟨20, 200, 1⟩, ⟨10, 100, 1⟩] ∧
    arcC6S2.ghostList = [] ∧
    arcC6S2.ghostKeys = [10] ∧
    arcC6S2.mainKeys = [20] ∧
    arcC6S3.mainList = [⟨30, 300, 1⟩, ⟨10, 100, 1⟩, ⟨20, 200, 1⟩] ∧
    arcC6S3.ghostList = [] ∧
    arcC6S3.ghostKeys = [10] ∧
    arcC6S3.mainKeys = [20, 30] :=
  ⟨rfl, rfl, rfl, rfl, rfl, rfl, rfl, rfl⟩

/-- Counterexample to C7: on `LRUKCache(2, 10, 3)` the third `get(A)`
does NOT admit `A` into the main cache — `LRUKCache::get` never writes
the main cache, it only updates the history count (here 3) and forwards
to the base `LRUCache::get`. -/
theorem lruk_third_get_does_not_admit :
    (lrukGetN 3).main.list = [] ∧ (lrukGetN 3).history.list = [(1, 3)] :=
  ⟨rfl, rfl⟩

/-- **C7** (amended): on `LRUKCache(2, 10, 3)` starting empty, two
`get(A)` leave `A` absent from the main cache (as claimed) — but so does
the third and every further `get`: only `put` can admit. A `put(A, v)`
whose history bump has not yet reached `k_ = 3` does not admit `A`
(unless `A` is already present, in which case it just overwrites); the
third `put` reaches the threshold, admits `A` with value `v` and drops
the history entry. -/
theorem lruk_admission_scenario :
    (lrukGetN 2).main.list = [] ∧
    (lrukGetN 3).main.list = [] ∧
    (lrukGetN 3).history.list = [(1, 3)] ∧
    (lrukPutN 1).main.list = [] ∧
    (lrukPutN 2).main.list = [] ∧
    (lrukPutN 3).main.list = [(1, "v")] ∧
    (lrukPutN 3).history.list = [] ∧
    (lrukPut lrukPresentState 1 "new").main.list = [(1, "new")] :=
  ⟨rfl, rfl, rfl, rfl, rfl, rfl, rfl, rfl⟩

/-- Counterexample to C9: `LRUKCache(2, 10, 3)` is a policy instance
with capacity 2 ≥ 1, yet `put(1, "A")` followed by `get(1)` misses (the
put only recorded a history count of 1 < 3 and did not admit the key, so
the get returns the default-constructed `""`). -/
theorem lruk_put_then_get_misses :
    (lrukGet (lrukPut (lrukInit 2 10 3 : LRUKState Nat) 1 "A") 1).1 = "" ∧
    (lrukPut (lrukInit 2 10 3 : LRUKState Nat) 1 "A").main.list = [] :=
  ⟨rfl, rfl⟩

/-- **C9** (amended): the put/get round trips hold for the base policies
`LRUCache` (capacity ≥ 1, distinct stored keys — an invariant of every
reachable state) and `LFUCache` (capacity ≥ 1): `put(k,v); get(k)`
reports a hit with `v`, and `put(k,v1); put(k,v2); get(k)` reports a hit
with `v2`. They do NOT hold for every policy instance: `LRUKCache`
refuses to admit a fresh key on `put` (see the counterexample). -/
theorem put_get_roundtrip_for_lru_and_lfu [Inhabited K] :
    (∀ (s : LRUState K V) (k : K) (v : V),
      (s.list.map Prod.fst).Nodup → 1 ≤ s.capacity →
      (lruGet (lruPut s k v) k).1 = some v) ∧
    (∀ (s : LRUState K V) (k : K) (v1 v2 : V),
      (s.list.map Prod.fst).Nodup → 1 ≤ s.capacity →
      (lruGet (lruPut (lruPut s k v1) k v2) k).1 = some v2) ∧
    (∀ (s : LFUState K V) (k : K) (v : V), 1 ≤ s.capacity →
      (lfuGet (lfuPut s k v) k).1 = some v) ∧
    (∀ (s : LFUState K V) (k : K) (v1 v2 : V), 1 ≤ s.capacity →
      (lfuGet (lfuPut (lfuPut s k v1) k v2) k).1 = some v2) := by
  refine ⟨?_, ?_, ?_, ?_⟩
  · intro s k v hnd hcap
    exact lru_put_get_value hnd hcap k v
  · intro s k v1 v2 hnd hcap
    refine lru_put_get_value (lruPut_nodup hnd k v1) ?_ k v2
    rw [lruPut_capacity]
    exact hcap
  · intro s k v hcap
    exact lfu_put_get_value (by omega) k v
  · intro s k v1 v2 hcap
    refine lfu_put_get_value ?_ k v2
    rw [lfuPut_capacity]
    omega

/-- Witness for the amended C9 theorem on concrete two-capacity caches. -/
theorem put_get_roundtrip_for_lru_and_lfu_witness :
    (lruGet (lruPut (lruInit 2 : LRUState Nat Nat) 1 5) 1).1 = some 5 ∧
    (lruGet (lruPut (lruPut (lruInit 2 : LRUState Nat Nat) 1 5) 1 6) 1).1 = some 6 ∧
    (lfuGet (lfuPut (lfuInit 2 10 : LFUState Nat Nat) 1 5) 1).1 = some 5 ∧
    (lfuGet (lfuPut (lfuPut (lfuInit 2 10 : LFUState Nat Nat) 1 5) 1 6) 1).1 = some 6 := by
  have h := put_get_roundtrip_for_lru_and_lfu (K := Nat) (V := Nat)
  exact ⟨h.1 (lruInit 2) 1 5 (by decide) (by decide),
         h.2.1 (lruInit 2) 1 5 6 (by decide) (by decide),
         h.2.2.1 (lfuInit 2 10) 1 5 (by decide),
         h.2.2.2 (lfuInit 2 10) 1 5 6 (by decide)⟩

end Cache
